import Mathlib

/-!
# The OpenGL demo backend (`opengl.c`): image decoder, font atlas decoder, draw-list renderer

A shallow embedding of `ldbmp`, `ldfont` and `draw` with their helpers, followed by
the properties established about them.

Conventions of the embedding.

* A byte buffer handed to the program is a `Buffer`: a size and the byte at each offset.
  Reading at or beyond `size` leaves the object; such a run ends in `Outcome.fault`.
* `uint32_t` arithmetic wraps (`wrapU32`); `int` / `int32_t` / `GLint` / `GLsizei`
  values are integers reduced to the two's complement range (`wrapI32`) after each
  conversion and operation.
* Multi-byte fields are copied with `memcpy` into integer variables; the byte order is
  little-endian.
* `die` ends the process: `Outcome.die` with the message that was printed.
* What the process does to its surroundings (heap requests, device calls) is recorded,
  in order, as a list of `Event`s; what the surroundings answer (whether `calloc` yields
  a block, the texture name handed out) is an `Env`.
* The only floating-point operation, the division of two small non-negative integers
  converted to `float`, is computed exactly as IEEE 754 binary32 does (`fdiv`).
* The records declared in `gui.h` (glyph, font, draw command, draw-call list) are not
  in the source; they are modelled from their description, and the type of the clip
  rectangle's fields is a parameter.
* The device is the part of the OpenGL state `draw` touches, with the effect of each
  call as the OpenGL 2.1 specification gives it (`Device.exec`).
-/

namespace Nuklear

/-! ## Machine integers and byte buffers -/

/-- Reduction of a natural number to `uint32_t`. -/
def wrapU32 (n : Nat) : Nat := n % 2 ^ 32

/-- Reduction of an integer to the two's complement range of a 32-bit `int`. -/
def wrapI32 (z : Int) : Int := (z + 2 ^ 31) % 2 ^ 32 - 2 ^ 31

/-- Reduction of an integer to the two's complement range of a `short`. -/
def wrapI16 (z : Int) : Int := (z + 2 ^ 15) % 2 ^ 16 - 2 ^ 15

/-- One `gui_byte`. -/
abbrev Byte := Fin 256

/-- A byte object in memory, seen from a pointer to its first byte. -/
structure Buffer where
  size : Nat
  byte : Nat → Byte

namespace Buffer

/-- The buffer holding exactly the listed bytes. -/
def ofList (l : List Byte) : Buffer := ⟨l.length, fun i => l.getD i 0⟩

/-- Reads `p[off]`; `none` when the offset is outside the object. -/
def read (b : Buffer) (off : Nat) : Option Byte :=
  if off < b.size then some (b.byte off) else none

/-- The same object seen from the pointer `p + n`. -/
def advance (b : Buffer) (n : Nat) : Buffer := ⟨b.size - n, fun i => b.byte (n + i)⟩

end Buffer

/-- Reads a `uint16_t` with `memcpy(&v, &p[off], 2)`. -/
def rd16 (b : Buffer) (off : Nat) : Option Nat :=
  match b.read off, b.read (off + 1) with
  | some b0, some b1 => some (b0.val + 256 * b1.val)
  | _, _ => none

/-- Reads a 4-byte object with `memcpy(&v, &p[off], 4)`, as an unsigned number. -/
def rd32 (b : Buffer) (off : Nat) : Option Nat :=
  match b.read off, b.read (off + 1), b.read (off + 2), b.read (off + 3) with
  | some b0, some b1, some b2, some b3 =>
    some (b0.val + 256 * b1.val + 65536 * b2.val + 16777216 * b3.val)
  | _, _, _, _ => none

/-! ## Process outcomes and recorded effects -/

/-- The messages `die` prints before `exit(1)`. The call in `ldfile` is not among them:
its format has a `%s` conversion and the call passes no argument for it. -/
inductive Abort where
  | bmpNullSize
  | bmpInvalidFile
  | bmpInvalidSize
  | outOfMemory
  deriving DecidableEq, Repr

/-- How a call ends: it returns, the process exits through `die`, or its behaviour is
undefined in C: an access left its object, or `vfprintf` was given a conversion without
an argument. -/
inductive Outcome (α : Type) where
  | ret (a : α)
  | die (msg : Abort)
  | fault
  deriving DecidableEq

/-- Capabilities switched with `glEnable` / `glDisable`. -/
inductive Cap where
  | blend
  | cullFace
  | depthTest
  | scissorTest
  | texture2D
  deriving DecidableEq, Repr

/-- Client-side arrays switched with `glEnableClientState` / `glDisableClientState`. -/
inductive ClientArray where
  | vertex
  | texCoord
  | color
  deriving DecidableEq, Repr

/-- Matrix modes of the device. -/
inductive MatrixMode where
  | modelview
  | projection
  | texture
  | color
  deriving DecidableEq, Repr

/-- Device calls issued by the program, with the arguments that vary from call to call.
`pushAttrib` is `glPushAttrib(GL_ENABLE_BIT | GL_COLOR_BUFFER_BIT | GL_TRANSFORM_BIT)`,
`blendFuncSrcAlpha` is `glBlendFunc(GL_SRC_ALPHA, GL_ONE_MINUS_SRC_ALPHA)`, `ortho w h` is
`glOrtho(0, w, h, 0, 0, 1)`, the three pointer calls carry the vertex buffer they point
into, `drawArrays` is `glDrawArrays(GL_TRIANGLES, first, count)`, and every texture call
is on `GL_TEXTURE_2D`. -/
inductive GLCall where
  | genTextures
  | bindTexture (name : Nat)
  | texImage2D (width height : Int) (pixels : List Byte)
  | texParameterWrapS
  | texParameterWrapT
  | texParameterMagFilter
  | texParameterMinFilter
  | texEnvModulate
  | pushAttrib
  | popAttrib
  | enable (c : Cap)
  | disable (c : Cap)
  | blendFuncSrcAlpha
  | enableClientState (a : ClientArray)
  | disableClientState (a : ClientArray)
  | matrixMode (m : MatrixMode)
  | pushMatrix
  | popMatrix
  | loadIdentity
  | ortho (width height : Int)
  | vertexPointer (vertexes : Nat)
  | texCoordPointer (vertexes : Nat)
  | colorPointer (vertexes : Nat)
  | scissor (x y w h : Int)
  | drawArrays (first count : Int)
  deriving DecidableEq, Repr

/-- Effects on the surroundings of the process, in the order they happen. -/
inductive Event where
  | calloc (nmemb size : Nat)
  | free
  | gl (c : GLCall)
  deriving DecidableEq, Repr

/-- What the surroundings answer: whether `calloc` of a given total size yields a
block, and the texture name `glGenTextures` stores. -/
structure Env where
  allocOk : Nat → Bool
  texName : Nat

/-- A finished call: the effects it had and how it ended. -/
structure Run (α : Type) where
  events : List Event
  out : Outcome α
  deriving DecidableEq

/-! ## `ldbmp` -/

/-- One byte copy `*(target + dst) = *(data + src)` of the decode loop. -/
structure Copy where
  dst : Int
  src : Nat
  deriving DecidableEq, Repr

/-- Performs one byte copy from `data` into the target block `mem`. -/
def copyByte (data : Buffer) (mem : List Byte) (c : Copy) : Option (List Byte) :=
  match data.read c.src with
  | none => none
  | some v => if 0 ≤ c.dst ∧ c.dst < mem.length then some (mem.set c.dst.toNat v) else none

/-- Performs byte copies one after the other, stopping at the first that leaves an
object. -/
def execCopies (data : Buffer) : List Copy → List Byte → Option (List Byte)
  | [], mem => some mem
  | c :: cs, mem =>
    match copyByte data mem c with
    | none => none
    | some mem1 => execCopies data cs mem1

/-- The four byte copies of the inner loop body at column `j`, `writer` being the
write pointer before them and `reader` the start of the source row. -/
def pixelCopies (reader j : Nat) (writer : Int) : List Copy :=
  [⟨writer, reader + wrapU32 (j * 4) + 1⟩,
   ⟨writer + 1, reader + wrapU32 (j * 4) + 2⟩,
   ⟨writer + 2, reader + wrapU32 (j * 4) + 3⟩,
   ⟨writer + 3, reader + wrapU32 (j * 4) + 0⟩]

/-- The inner loop `for (j = ...; j < *width; j++)` with `n` iterations left. -/
def decodeRow (data : Buffer) (reader : Nat) : Nat → Nat → Int → List Byte → Option (List Byte)
  | 0, _, _, mem => some mem
  | n + 1, j, writer, mem =>
    match execCopies data (pixelCopies reader j writer) mem with
    | none => none
    | some mem1 => decodeRow data reader n (j + 1) (writer + 4) mem1

/-- The outer loop `for (i = ...; i >= 0; i--)`; the first argument is `i + 1`. -/
def decodeRows (data : Buffer) (W : Nat) : Nat → Nat → List Byte → Option (List Byte)
  | 0, _, mem => some mem
  | i + 1, reader, mem =>
    match decodeRow data reader W 0 (wrapI32 (wrapI32 ((i : Int) * wrapI32 W) * 4)) mem with
    | none => none
    | some mem1 => decodeRows data W i (reader + wrapU32 (W * 4)) mem1

/-- Number of passes of the outer loop: `i` starts at `(int32_t)*height - 1` and the
loop runs while `i >= 0`. -/
def rowPasses (H : Nat) : Nat := (wrapI32 (wrapI32 H - 1) + 1).toNat

/-- The decode loop of `ldbmp` (lines 169-181) on the target block `mem`. -/
def decodeLoop (data : Buffer) (ioff W H : Nat) (mem : List Byte) : Option (List Byte) :=
  decodeRows data W (rowPasses H) ioff mem

/-- The byte copies the inner loop performs, in order. -/
def rowAccesses (reader : Nat) : Nat → Nat → Int → List Copy
  | 0, _, _ => []
  | n + 1, j, writer => pixelCopies reader j writer ++ rowAccesses reader n (j + 1) (writer + 4)

/-- The byte copies the outer loop performs, in order. -/
def rowsAccesses (W : Nat) : Nat → Nat → List Copy
  | 0, _ => []
  | i + 1, reader =>
    rowAccesses reader W 0 (wrapI32 (wrapI32 ((i : Int) * wrapI32 W) * 4))
      ++ rowsAccesses W i (reader + wrapU32 (W * 4))

/-- The byte copies of the whole decode loop, in order. -/
def decodeAccesses (ioff W H : Nat) : List Copy := rowsAccesses W (rowPasses H) ioff

/-- The block `calloc(n, 1)` yields: `n` zero bytes. -/
def zeroBlock (n : Nat) : List Byte := List.replicate n 0

/-- Size passed to `xcalloc` for the pixel block: `*width * *height * 4` in `uint32_t`. -/
def targetSize (W H : Nat) : Nat := wrapU32 (wrapU32 (W * H) * 4)

/-- What `ldbmp` hands back: the texture name and the stored `*width`, `*height`. -/
structure BmpOut where
  texture : Nat
  width : Nat
  height : Nat
  deriving DecidableEq, Repr

/-- The device calls of `ldbmp` after decoding (lines 183-194), with the final `free`. -/
def uploadEvents (env : Env) (W H : Nat) (target : List Byte) : List Event :=
  [.gl .genTextures, .gl (.bindTexture env.texName),
   .gl (.texImage2D (wrapI32 W) (wrapI32 H) target),
   .gl .texParameterWrapS, .gl .texParameterWrapT,
   .gl .texParameterMagFilter, .gl .texParameterMinFilter,
   .gl .texEnvModulate, .free]

/-- Lines 166-194 of `ldbmp`, entered with the three header fields `*width`, `*height`
and `ioff` already copied out: the size check, the allocation of the pixel block, the
decode loop and the upload. -/
def ldbmpDecode (env : Env) (data : Buffer) (W H ioff : Nat) : Run BmpOut :=
  if W ≤ 0 ∨ H ≤ 0 then ⟨[], .die .bmpInvalidSize⟩ else
  if env.allocOk (targetSize W H) = false then
    ⟨[.calloc (targetSize W H) 1], .die .outOfMemory⟩ else
  match decodeLoop data ioff W H (zeroBlock (targetSize W H)) with
  | none => ⟨[.calloc (targetSize W H) 1], .fault⟩
  | some target =>
    ⟨.calloc (targetSize W H) 1 :: uploadEvents env W H target, .ret ⟨env.texName, W, H⟩⟩

/-- The function `ldbmp(data, width, height)`; `width` and `height` tell whether the
two result pointers are non-null. -/
def ldbmp (env : Env) (data : Buffer) (width height : Bool) : Run BmpOut :=
  if !width || !height then ⟨[], .die .bmpNullSize⟩ else
  match data.read 0 with
  | none => ⟨[], .fault⟩
  | some h0 =>
  if h0 ≠ 66 then ⟨[], .die .bmpInvalidFile⟩ else
  match data.read 1 with
  | none => ⟨[], .fault⟩
  | some h1 =>
  if h1 ≠ 77 then ⟨[], .die .bmpInvalidFile⟩ else
  match rd32 data 0x12, rd32 data 0x16, rd32 data 0x0A with
  | some W, some H, some ioff => ldbmpDecode env data W H ioff
  | _, _, _ => ⟨[], .fault⟩

/-- The bytes of `data` are a well-formed image of `W` x `H` pixels with pixel data at
`ioff`, small enough for the 32-bit arithmetic of `ldbmp`. -/
def WellFormedImage (data : Buffer) (W H ioff : Nat) : Prop :=
  data.read 0 = some 66 ∧ data.read 1 = some 77 ∧
  rd32 data 0x12 = some W ∧ rd32 data 0x16 = some H ∧ rd32 data 0x0A = some ioff ∧
  0 < W ∧ 0 < H ∧ W * H * 4 < 2 ^ 31 ∧ ioff + W * H * 4 ≤ data.size

/-- Source byte position, within a 4-byte source pixel, of each canonical channel: the
order in which the loop body reads `reader + j * 4 + 1, + 2, + 3, + 0`. -/
def channelSource : List Nat := [1, 2, 3, 0]

/-! ### Re-encoding a pixel buffer

The program has no encoder. This one follows the description of the image format: what
`ldbmp` is expected to invert. -/

/-- The four bytes of a 4-byte field holding `v`. -/
def le32 (v : Nat) : List Byte :=
  [Fin.ofNat (v % 256), Fin.ofNat (v / 256 % 256), Fin.ofNat (v / 65536 % 256),
   Fin.ofNat (v / 16777216 % 256)]

/-- The 26 header bytes: magic, pixel-data offset at 0x0A, width at 0x12, height at
0x16; the bytes in between are zero. -/
def bmpHeader (ioff W H : Nat) : List Byte :=
  [66, 77, 0, 0, 0, 0, 0, 0, 0, 0] ++ le32 ioff ++ [0, 0, 0, 0] ++ le32 W ++ le32 H

/-- Canonical channel stored at each byte position of a source pixel: channel `k`
sits at position `channelSource[k]`. -/
def channelAt : List Nat := [3, 0, 1, 2]

/-- The image buffer for the canonical pixel buffer `P`, written with the convention
of the format: header, then from offset `ioff` the rows bottom-up, canonical byte `k`
of each pixel at source position `channelSource[k]`. -/
def encodeBmp (ioff W H : Nat) (P : List Byte) : Buffer where
  size := ioff + W * H * 4
  byte := fun i =>
    if i < 26 then (bmpHeader ioff W H).getD i 0
    else if ioff ≤ i then
      P.getD (((H - 1 - (i - ioff) / (W * 4)) * W + (i - ioff) % (W * 4) / 4) * 4
        + channelAt.getD ((i - ioff) % 4) 0) 0
    else 0

/-! ### Sample inputs -/

/-- Surroundings in which every allocation succeeds and the device hands out name 7. -/
def sampleEnv : Env := ⟨fun _ => true, 7⟩

/-- A 2 x 2 image with pixel data at offset 26. -/
def sampleBmp : Buffer :=
  Buffer.ofList (bmpHeader 26 2 2 ++
    [10, 11, 12, 13, 20, 21, 22, 23, 30, 31, 32, 33, 40, 41, 42, 43])

/-- An image buffer whose first byte is not 'B'. -/
def badMagicBmp : Buffer := Buffer.ofList ([65, 77] ++ (bmpHeader 26 2 2).drop 2)

/-- A header announcing width 0. -/
def zeroWidthBmp : Buffer := Buffer.ofList (bmpHeader 26 0 2)

/-- A 1 x 0xC0000001 header (height -1073741823 as a signed field) with 4 data bytes. -/
def negHeightBmp : Buffer := Buffer.ofList (bmpHeader 26 1 0xC0000001 ++ [1, 2, 3, 4])

/-- A 2^30 x 1 image: 26 header bytes followed by 2^32 zero bytes of pixel data. -/
def wideBmp : Buffer := ⟨26 + 2 ^ 32, fun i => (bmpHeader 26 (2 ^ 30) 1).getD i 0⟩


/-! ## `ldfont` -/

/-- Values a computed `float` takes in `ldfont`, where only non-negative integers are
divided: the non-negative dyadic number `m * 2 ^ e`, positive infinity, or
not-a-number. -/
inductive F32 where
  | fin (m : Nat) (e : Int)
  | inf
  | nan
  deriving DecidableEq, Repr

namespace F32

/-- The float whose bytes are all zero. -/
def zero : F32 := .fin 0 0

/-- The rational number a finite float stands for. -/
def toRat : F32 → Option ℚ
  | .fin m e => some ((m : ℚ) * (2 : ℚ) ^ e)
  | .inf => none
  | .nan => none

/-- The float is a number in the closed interval from 0 to 1. -/
def InUnit (f : F32) : Prop := ∃ q : ℚ, f.toRat = some q ∧ 0 ≤ q ∧ q ≤ 1

/-- The float is a number `m * 2 ^ e` with a significand `m` of at most 24 bits (or
`2 ^ 24` itself) that lies within relative error `2 ^ -24`, half a unit in the last of 24
significant bits, of the exact quotient `a / b`. -/
def RoundsQuotient (f : F32) (a b : Nat) : Prop :=
  ∃ (m : Nat) (e : Int), f = .fin m e ∧ m ≤ 2 ^ 24 ∧
    |(m : ℚ) * (2 : ℚ) ^ e - (a : ℚ) / (b : ℚ)| ≤ (a : ℚ) / (b : ℚ) / 2 ^ 24

end F32

/-- Rounds the quotient `n / d` to the nearest integer, ties to the even one. -/
def roundHalfEven (n d : Nat) : Nat :=
  if 2 * (n % d) > d ∨ (2 * (n % d) = d ∧ n / d % 2 = 1) then n / d + 1 else n / d

/-- The quotient `a / b` scaled by `2 ^ (-e)`, as numerator and denominator. -/
def scaledQuotient (a b : Nat) (e : Int) : Nat × Nat :=
  (a * 2 ^ (-e).toNat, b * 2 ^ e.toNat)

/-- Number of binary digits of `n`; the first argument bounds the number of halvings. -/
def bitLength : Nat → Nat → Nat
  | 0, _ => 0
  | fuel + 1, n => if n = 0 then 0 else bitLength fuel (n / 2) + 1

/-- Position of the leading binary digit of `n`: the integer part of its base-2
logarithm when `n` is positive. -/
def ilog2 (n : Nat) : Nat := bitLength n n - 1

/-- The division `(float)a / (float)b` of IEEE 754 binary32 in the default rounding mode,
for integers `a`, `b` below `2 ^ 24`: both conversions are exact, and a non-zero
quotient is rounded to 24 significant bits (it is far from the subnormal and overflow
ranges). Dividing by zero gives infinity, or not-a-number for `0 / 0`. -/
def fdiv (a b : Nat) : F32 :=
  if b = 0 then (if a = 0 then .nan else .inf)
  else if a = 0 then .zero
  else
    let e1 : Int := (ilog2 a : Int) - (ilog2 b : Int) - 23
    let q1 := scaledQuotient a b e1
    let e : Int := if q1.1 / q1.2 < 2 ^ 23 then e1 - 1 else e1
    let q := scaledQuotient a b e
    .fin (roundHalfEven q.1 q.2) e

/-- Modelled from the spec: `struct gui_font_glyph` is declared in `gui.h`, which is not
part of the source. A glyph record holds the code point (unsigned integer), pixel width
and height (stored through the `(short)` casts of `ldfont`), horizontal and vertical
offset and horizontal advance (floats, kept as the four bytes copied in), and the two
normalised UV corners. -/
structure Glyph where
  code : Nat
  width : Int
  height : Int
  xoff : Nat
  yoff : Nat
  xadvance : Nat
  u0 : F32
  v0 : F32
  u1 : F32
  v1 : F32
  deriving DecidableEq, Repr

/-- A glyph record as left by `calloc`: every field zero. -/
def Glyph.zero : Glyph := ⟨0, 0, 0, 0, 0, 0, .zero, .zero, .zero, .zero⟩

/-- The locals `id, x, y, w, h, xoff, yoff, xadv` of one pass of the glyph loop; the
three floats are kept as the four bytes copied into them. -/
structure GlyphRecord where
  id : Nat
  x : Nat
  y : Nat
  w : Nat
  h : Nat
  xoff : Nat
  yoff : Nat
  xadv : Nat
  deriving DecidableEq, Repr

/-- The eight `memcpy` calls at the top of the loop body (lines 228-235), `iter` being
the offset of the record in the file buffer. -/
def readRecord (buffer : Buffer) (iter : Nat) : Option GlyphRecord :=
  match rd16 buffer iter, rd16 buffer (iter + 0x02), rd16 buffer (iter + 0x04),
      rd16 buffer (iter + 0x06), rd16 buffer (iter + 0x08), rd32 buffer (iter + 10),
      rd32 buffer (iter + 14), rd32 buffer (iter + 18) with
  | some id, some x, some y, some w, some h, some xoff, some yoff, some xadv =>
    some ⟨id, x, y, w, h, xoff, yoff, xadv⟩
  | _, _, _, _, _, _, _, _ => none

/-- The value given to `glyphes[id]` by lines 237-246. -/
def mkGlyph (texWidth texHeight : Nat) (r : GlyphRecord) : Glyph where
  code := r.id
  width := wrapI16 r.w
  height := wrapI16 r.h
  xoff := r.xoff
  yoff := r.yoff
  xadvance := r.xadv
  u0 := fdiv r.x texWidth
  v0 := fdiv r.y texHeight
  u1 := fdiv (r.x + r.w) texWidth
  v1 := fdiv (r.y + r.h) texHeight

/-- The variables the glyph loop updates: the table and `max_height`. -/
structure GlyphState where
  glyphes : List Glyph
  maxHeight : Int
  deriving DecidableEq, Repr

/-- Lines 237-247 for one record: the store into `glyphes[id]`, which must lie inside
the table, and the update of `max_height`. -/
def storeGlyph (texWidth texHeight : Nat) (st : GlyphState) (r : GlyphRecord) :
    Option GlyphState :=
  if r.id < st.glyphes.length then
    some ⟨st.glyphes.set r.id (mkGlyph texWidth texHeight r),
      if (mkGlyph texWidth texHeight r).height > st.maxHeight
      then (mkGlyph texWidth texHeight r).height else st.maxHeight⟩
  else none

/-- The loop `for (i = 0; i < num; ++i)` with `n` passes left and `iter` the offset of
the next record. -/
def glyphLoop (buffer : Buffer) (texWidth texHeight : Nat) :
    Nat → Nat → GlyphState → Option GlyphState
  | 0, _, st => some st
  | n + 1, iter, st =>
    match readRecord buffer iter with
    | none => none
    | some r =>
      match storeGlyph texWidth texHeight st r with
      | none => none
      | some st1 => glyphLoop buffer texWidth texHeight n (iter + 22) st1

/-- The table as `xcalloc` returns it: `indexes + 1` zero records. -/
def zeroTable (indexes : Nat) : List Glyph := List.replicate (indexes + 1) Glyph.zero

/-- Lines 216-249 of `ldfont` on the file contents: the four header fields, the zeroed
table and the glyph loop. -/
def loadGlyphs (buffer : Buffer) : Option GlyphState :=
  match rd16 buffer 0, rd16 buffer 0x02, rd16 buffer 0x04, rd16 buffer 0x06 with
  | some num, some indexes, some texWidth, some texHeight =>
    glyphLoop buffer texWidth texHeight num 0x08 ⟨zeroTable indexes, 0⟩
  | _, _, _, _ => none

/-- The parsed glyph records of a file buffer: record `i` sits at offset `8 + 22 * i`. -/
def readRecords (buffer : Buffer) (iter : Nat) : Nat → Option (List GlyphRecord)
  | 0 => some []
  | n + 1 =>
    match readRecord buffer iter, readRecords buffer (iter + 22) n with
    | some r, some rs => some (r :: rs)
    | _, _ => none

/-- The effect of one record on the loop variables, bounds aside. -/
def applyRecord (texWidth texHeight : Nat) (st : GlyphState) (r : GlyphRecord) : GlyphState :=
  ⟨st.glyphes.set r.id (mkGlyph texWidth texHeight r), max st.maxHeight (wrapI16 r.h)⟩

/-- The record whose glyph ends up at index `c`: the last one carrying `c`. -/
def lastRecord (recs : List GlyphRecord) (c : Nat) : Option GlyphRecord :=
  recs.reverse.find? (fun r => r.id = c)

/-- The largest glyph height among the records, heights being read as `short`, and 0 if
none is positive: the value of `max_height` after the loop. -/
def maxSignedHeight (recs : List GlyphRecord) : Int :=
  (recs.map (fun r => wrapI16 r.h)).foldl max 0

/-- Modelled from the spec: `struct gui_font` is declared in `gui.h`, which is not part
of the source. A font atlas holds the target height, the scale factor, the atlas texture
handle, the atlas pixel dimensions, the glyph table with its size, and the fallback
record, kept here as its index in the table. -/
structure Font where
  height : Nat
  scale : F32
  texture : Nat
  texWidth : Nat
  texHeight : Nat
  fallback : Nat
  glyphes : List Glyph
  glyphCount : Nat
  deriving DecidableEq, Repr

/-- Sizes fixed by `gui.h`: `sizeof(struct gui_font_glyph)` and `sizeof(struct gui_font)`. -/
structure Sizes where
  glyph : Nat
  font : Nat

/-- The function `ldfile`: `file` is the content of the file at `path`, if it can be
opened. When `fopen` fails, line 134 calls `die("Failed to open file: %s\n")` with no
argument for the `%s` conversion, so `vfprintf` fetches an argument that was never
passed: the behaviour is undefined. -/
def ldfile (env : Env) (file : Option Buffer) : Run Buffer :=
  match file with
  | none => ⟨[], .fault⟩
  | some content =>
    if env.allocOk content.size = false then ⟨[.calloc content.size 1], .die .outOfMemory⟩
    else ⟨[.calloc content.size 1], .ret content⟩

/-- Lines 251-261 of `ldfont`, entered with the header fields and the state the glyph
loop left: the font record is allocated and filled, the embedded image is decoded from
`iter`, the file buffer is released. -/
def ldfontFinish (env : Env) (sz : Sizes) (buffer : Buffer) (height : Byte)
    (num indexes texWidth texHeight : Nat) (st : GlyphState) : Run Font :=
  if env.allocOk sz.font = false then ⟨[.calloc sz.font 1], .die .outOfMemory⟩ else
  match ldbmp env (buffer.advance (0x08 + 22 * num)) true true with
  | ⟨ev, .ret bmp⟩ =>
    ⟨.calloc sz.font 1 :: ev ++ [.free],
      .ret ⟨height.val, fdiv height.val st.maxHeight.toNat, bmp.texture, texWidth, texHeight,
        63, st.glyphes, indexes + 1⟩⟩
  | ⟨ev, .die msg⟩ => ⟨.calloc sz.font 1 :: ev, .die msg⟩
  | ⟨ev, .fault⟩ => ⟨.calloc sz.font 1 :: ev, .fault⟩

/-- Lines 216-261 of `ldfont` on the buffer `ldfile` returned. -/
def ldfontParse (env : Env) (sz : Sizes) (buffer : Buffer) (height : Byte) : Run Font :=
  match rd16 buffer 0, rd16 buffer 0x02, rd16 buffer 0x04, rd16 buffer 0x06 with
  | some num, some indexes, some texWidth, some texHeight =>
    if env.allocOk (sz.glyph * (indexes + 1)) = false then
      ⟨[.calloc (sz.glyph * (indexes + 1)) 1], .die .outOfMemory⟩ else
    match glyphLoop buffer texWidth texHeight num 0x08 ⟨zeroTable indexes, 0⟩ with
    | none => ⟨[.calloc (sz.glyph * (indexes + 1)) 1], .fault⟩
    | some st =>
      let rest := ldfontFinish env sz buffer height num indexes texWidth texHeight st
      ⟨.calloc (sz.glyph * (indexes + 1)) 1 :: rest.events, rest.out⟩
  | _, _, _, _ => ⟨[], .fault⟩

/-- The function `ldfont(name, height)`; `file` is the content of the file `name`, if it
can be opened. -/
def ldfont (env : Env) (sz : Sizes) (file : Option Buffer) (height : Byte) : Run Font :=
  match ldfile env file with
  | ⟨ev, .ret buffer⟩ =>
    let rest := ldfontParse env sz buffer height
    ⟨ev ++ rest.events, rest.out⟩
  | ⟨ev, .die msg⟩ => ⟨ev, .die msg⟩
  | ⟨ev, .fault⟩ => ⟨ev, .fault⟩

/-- A glyph record as 22 file bytes. -/
def recordBytes (id x y w h : Nat) : List Byte :=
  [Fin.ofNat (id % 256), Fin.ofNat (id / 256), Fin.ofNat (x % 256), Fin.ofNat (x / 256),
   Fin.ofNat (y % 256), Fin.ofNat (y / 256), Fin.ofNat (w % 256), Fin.ofNat (w / 256),
   Fin.ofNat (h % 256), Fin.ofNat (h / 256), 0, 0, 0, 0, 0, 0, 0, 0, 0, 0, 128, 63]

/-- An atlas header: glyph count, maximum index, atlas width and height. -/
def atlasHeader (num indexes texWidth texHeight : Nat) : List Byte :=
  [Fin.ofNat (num % 256), Fin.ofNat (num / 256), Fin.ofNat (indexes % 256),
   Fin.ofNat (indexes / 256), Fin.ofNat (texWidth % 256), Fin.ofNat (texWidth / 256),
   Fin.ofNat (texHeight % 256), Fin.ofNat (texHeight / 256)]

/-- The sizes of the two records on a common 64-bit build. -/
def sampleSizes : Sizes := ⟨40, 56⟩

/-- An atlas of 64 x 64 pixels with glyphs for `A` (height 20) and `?` (height 12),
maximum index 70, followed by the 2 x 2 sample image. -/
def sampleAtlas : Buffer :=
  Buffer.ofList (atlasHeader 2 70 64 64 ++ recordBytes 65 0 0 10 20 ++ recordBytes 63 10 0 8 12
    ++ bmpHeader 26 2 2 ++ [10, 11, 12, 13, 20, 21, 22, 23, 30, 31, 32, 33, 40, 41, 42, 43])

/-- An atlas of 5 x 5 pixels with one glyph placed at x = 10. -/
def outsideAtlas : Buffer := Buffer.ofList (atlasHeader 1 0 5 5 ++ recordBytes 0 10 0 0 0)

/-- An atlas with one glyph whose height field holds 40000. -/
def tallAtlas : Buffer :=
  Buffer.ofList (atlasHeader 1 0 64 64 ++ recordBytes 0 0 0 10 40000
    ++ bmpHeader 26 2 2 ++ [10, 11, 12, 13, 20, 21, 22, 23, 30, 31, 32, 33, 40, 41, 42, 43])

/-- The two glyph records of `sampleAtlas`, in file order. -/
def sampleRecords : List GlyphRecord :=
  [⟨65, 0, 0, 10, 20, 0, 0, 1065353216⟩, ⟨63, 10, 0, 8, 12, 0, 0, 1065353216⟩]

/-- The font `ldfont` builds from `sampleAtlas` at height 16. -/
def sampleFont : Font where
  height := 16
  scale := .fin 13421773 (-24)
  texture := 7
  texWidth := 64
  texHeight := 64
  fallback := 63
  glyphes := ((zeroTable 70).set 65 (mkGlyph 64 64 ⟨65, 0, 0, 10, 20, 0, 0, 1065353216⟩)).set 63
    (mkGlyph 64 64 ⟨63, 10, 0, 8, 12, 0, 0, 1065353216⟩)
  glyphCount := 71

/-- The effects of loading a font whose file has `fileSize` bytes and whose table has
`entries` records, the embedded image being the 2 x 2 sample image. -/
def sampleFontEvents (fileSize entries : Nat) : List Event :=
  [.calloc fileSize 1, .calloc (40 * entries) 1, .calloc 56 1, .calloc 16 1]
    ++ uploadEvents sampleEnv 2 2 [31, 32, 33, 30, 41, 42, 43, 40, 11, 12, 13, 10, 21, 22, 23, 20]
    ++ [.free]

/-! ## `draw` -/

/-- The type of the clip rectangle's fields is declared in `gui.h`, which is not part of
the source; `draw` uses its addition and its conversion `(int)`. They are parameters. -/
structure CoordOps (R : Type) where
  add : R → R → R
  toInt : R → Int

/-- Integer pixel coordinates held in `int` fields. -/
def intCoord : CoordOps Int := ⟨fun a b => wrapI32 (a + b), fun a => a⟩

/-- The member `clip_rect` of a draw command. -/
structure ClipRect (R : Type) where
  x : R
  y : R
  w : R
  h : R

/-- Modelled from the spec: `struct gui_draw_command` is declared in `gui.h`, which is not
part of the source. A draw command is a clip rectangle, a texture handle (the texture
name kept in its member `gl`) and a vertex count; the count has the unsigned type
`gui_size`. -/
structure DrawCommand (R : Type) where
  clip : ClipRect R
  texture : Nat
  vertexCount : Nat

/-- Modelled from the spec: `struct gui_draw_call_list` is declared in `gui.h`, which is
not part of the source. A draw-call list is a vertex buffer, named here by a number, and
its `command_size` commands in order. -/
structure DrawCallList (R : Type) where
  vertexes : Nat
  commands : List (DrawCommand R)

/-- The three device calls of one pass of the inner loop (lines 313-321), `offset` being
the running vertex offset before the pass. -/
def commandCalls {R : Type} (ops : CoordOps R) (height : Int) (cmd : DrawCommand R)
    (offset : Int) : List GLCall :=
  [.scissor (ops.toInt cmd.clip.x)
      (wrapI32 (height - ops.toInt (ops.add cmd.clip.y cmd.clip.h)))
      (ops.toInt cmd.clip.w) (ops.toInt cmd.clip.h),
   .bindTexture cmd.texture,
   .drawArrays offset (wrapI32 cmd.vertexCount)]

/-- The inner loop over the commands of one list: the calls issued and the value of
`offset` afterwards. -/
def drawCommands {R : Type} (ops : CoordOps R) (height : Int) :
    List (DrawCommand R) → Int → List GLCall × Int
  | [], offset => ([], offset)
  | cmd :: rest, offset =>
    let r := drawCommands ops height rest (wrapI32 (offset + wrapI32 cmd.vertexCount))
    (commandCalls ops height cmd offset ++ r.1, r.2)

/-- The outer loop over the lists (lines 306-324). -/
def drawLists {R : Type} (ops : CoordOps R) (height : Int) :
    List (DrawCallList R) → Int → List GLCall
  | [], _ => []
  | l :: ls, offset =>
    let r := drawCommands ops height l.commands offset
    [.vertexPointer l.vertexes, .texCoordPointer l.vertexes, .colorPointer l.vertexes]
      ++ r.1 ++ drawLists ops height ls r.2

/-- The calls before the loops (lines 287-304). -/
def drawSetup (width height : Int) : List GLCall :=
  [.pushAttrib, .enable .blend, .blendFuncSrcAlpha, .disable .cullFace, .disable .depthTest,
   .enable .scissorTest, .enableClientState .vertex, .enableClientState .texCoord,
   .enableClientState .color, .enable .texture2D,
   .matrixMode .projection, .pushMatrix, .loadIdentity, .ortho width height,
   .matrixMode .modelview, .pushMatrix, .loadIdentity]

/-- The calls after the loops (lines 326-333). -/
def drawTeardown : List GLCall :=
  [.disableClientState .color, .disableClientState .texCoord, .disableClientState .vertex,
   .matrixMode .modelview, .popMatrix, .matrixMode .projection, .popMatrix, .popAttrib]

/-- The function `draw(width, height, list, count)`: the device calls it issues, in
order. `list` is `none` for a null pointer and otherwise the `count` lists. -/
def draw {R : Type} (ops : CoordOps R) (width height : Int)
    (list : Option (List (DrawCallList R))) : List GLCall :=
  match list with
  | none => []
  | some ls => drawSetup width height ++ drawLists ops height ls 0 ++ drawTeardown

/-- The calls that belong to a draw command: scissor, texture bind, triangle draw. -/
def GLCall.isCommandCall : GLCall → Bool
  | .scissor _ _ _ _ => true
  | .bindTexture _ => true
  | .drawArrays _ _ => true
  | _ => false

/-- All commands of a collection, in list order and then command order. -/
def allCommands {R : Type} (ls : List (DrawCallList R)) : List (DrawCommand R) :=
  ls.flatMap (fun l => l.commands)

/-- The calls described for the `i`-th command of a collection: its scissor rectangle
with the vertical axis flipped, its texture, and a triangle draw of its vertices
starting after the vertices of all earlier commands. -/
def describedCalls {R : Type} (ops : CoordOps R) (height : Int) (cmds : List (DrawCommand R))
    (i : Nat) : List GLCall :=
  match cmds[i]? with
  | none => []
  | some cmd =>
    [.scissor (ops.toInt cmd.clip.x) (height - ops.toInt (ops.add cmd.clip.y cmd.clip.h))
        (ops.toInt cmd.clip.w) (ops.toInt cmd.clip.h),
     .bindTexture cmd.texture,
     .drawArrays (((cmds.take i).map fun c => (c.vertexCount : Int)).sum) cmd.vertexCount]

/-- The calls of the commands `cmds` when `base` vertices precede them, without any
32-bit reduction. -/
def runningCalls {R : Type} (ops : CoordOps R) (height : Int) :
    List (DrawCommand R) → Int → List GLCall
  | [], _ => []
  | cmd :: rest, base =>
    [.scissor (ops.toInt cmd.clip.x) (height - ops.toInt (ops.add cmd.clip.y cmd.clip.h))
        (ops.toInt cmd.clip.w) (ops.toInt cmd.clip.h),
     .bindTexture cmd.texture,
     .drawArrays base cmd.vertexCount] ++ runningCalls ops height rest (base + cmd.vertexCount)

/-- The described calls of command `i` when `base` vertices precede the commands. -/
def describedFrom {R : Type} (ops : CoordOps R) (height : Int) (base : Int)
    (cmds : List (DrawCommand R)) (i : Nat) : List GLCall :=
  match cmds[i]? with
  | none => []
  | some cmd =>
    [.scissor (ops.toInt cmd.clip.x) (height - ops.toInt (ops.add cmd.clip.y cmd.clip.h))
        (ops.toInt cmd.clip.w) (ops.toInt cmd.clip.h),
     .bindTexture cmd.texture,
     .drawArrays (base + ((cmds.take i).map fun c => (c.vertexCount : Int)).sum)
       cmd.vertexCount]

/-- The calls issued inside the two loops of `draw`. -/
def GLCall.isLoopCall : GLCall → Bool
  | .vertexPointer _ => true
  | .texCoordPointer _ => true
  | .colorPointer _ => true
  | .scissor _ _ _ _ => true
  | .bindTexture _ => true
  | .drawArrays _ _ => true
  | _ => false

/-! ### The device -/

/-- A matrix on a device stack, as built from the calls: one that was there before,
the identity, or an earlier matrix multiplied by the orthographic projection of
`glOrtho(0, width, height, 0, 0, 1)`. -/
inductive Matrix where
  | given (tag : Nat)
  | identity
  | ortho (width height : Int) (m : Matrix)
  deriving DecidableEq, Repr

/-- What `glPushAttrib(GL_ENABLE_BIT | GL_COLOR_BUFFER_BIT | GL_TRANSFORM_BIT)` saves of
the modelled state: the enable flags, the blend function and the matrix mode. -/
structure SavedAttribs where
  blend : Bool
  cullFace : Bool
  depthTest : Bool
  scissorTest : Bool
  texture2D : Bool
  blendFunc : Nat × Nat
  matrixMode : MatrixMode
  deriving DecidableEq, Repr

/-- The part of the OpenGL (fixed-function, version 2.1) state that `draw` touches:
server enable flags, blend function, client-array enables, scissor box, texture bound to
`GL_TEXTURE_2D`, matrix mode, the projection and model-view stacks (current matrix and
the entries below it), the attribute stack, and the depth each stack may reach. -/
structure Device where
  blend : Bool
  cullFace : Bool
  depthTest : Bool
  scissorTest : Bool
  texture2D : Bool
  blendFunc : Nat × Nat
  vertexArray : Bool
  texCoordArray : Bool
  colorArray : Bool
  scissorBox : Int × Int × Int × Int
  boundTexture : Nat
  matrixMode : MatrixMode
  projection : Matrix
  projectionBelow : List Matrix
  modelview : Matrix
  modelviewBelow : List Matrix
  attribStack : List SavedAttribs
  projectionDepth : Nat
  modelviewDepth : Nat
  attribDepth : Nat
  deriving DecidableEq, Repr

namespace Device

/-- The saved copy `glPushAttrib` makes. -/
def saved (d : Device) : SavedAttribs :=
  ⟨d.blend, d.cullFace, d.depthTest, d.scissorTest, d.texture2D, d.blendFunc, d.matrixMode⟩

/-- Sets one enable flag. -/
def setCap (d : Device) (c : Cap) (v : Bool) : Device :=
  match c with
  | .blend => { d with blend := v }
  | .cullFace => { d with cullFace := v }
  | .depthTest => { d with depthTest := v }
  | .scissorTest => { d with scissorTest := v }
  | .texture2D => { d with texture2D := v }

/-- Sets one client-array enable. -/
def setClientArray (d : Device) (a : ClientArray) (v : Bool) : Device :=
  match a with
  | .vertex => { d with vertexArray := v }
  | .texCoord => { d with texCoordArray := v }
  | .color => { d with colorArray := v }

/-- Replaces the current matrix of the selected stack; the texture and colour stacks are
not part of the modelled state. -/
def setCurrent (d : Device) (f : Matrix → Matrix) : Device :=
  match d.matrixMode with
  | .projection => { d with projection := f d.projection }
  | .modelview => { d with modelview := f d.modelview }
  | _ => d

/-- Effect of one device call on the modelled state, after the OpenGL 2.1 specification:
a push on a full stack, a pop on a stack with nothing to pop, and a scissor call with a
negative size raise an error and change nothing; `glPopAttrib` restores what the matching
`glPushAttrib` saved; calls that act on texture objects, array pointers or the
framebuffer leave the modelled state alone. -/
def exec (d : Device) : GLCall → Device
  | .bindTexture name => { d with boundTexture := name }
  | .pushAttrib =>
    if d.attribStack.length < d.attribDepth then { d with attribStack := d.saved :: d.attribStack }
    else d
  | .popAttrib =>
    match d.attribStack with
    | [] => d
    | s :: rest =>
      { d with blend := s.blend, cullFace := s.cullFace, depthTest := s.depthTest,
               scissorTest := s.scissorTest, texture2D := s.texture2D,
               blendFunc := s.blendFunc, matrixMode := s.matrixMode, attribStack := rest }
  | .enable c => d.setCap c true
  | .disable c => d.setCap c false
  | .blendFuncSrcAlpha => { d with blendFunc := (0x0302, 0x0303) }
  | .enableClientState a => d.setClientArray a true
  | .disableClientState a => d.setClientArray a false
  | .matrixMode m => { d with matrixMode := m }
  | .pushMatrix =>
    match d.matrixMode with
    | .projection =>
      if d.projectionBelow.length + 1 < d.projectionDepth
      then { d with projectionBelow := d.projection :: d.projectionBelow } else d
    | .modelview =>
      if d.modelviewBelow.length + 1 < d.modelviewDepth
      then { d with modelviewBelow := d.modelview :: d.modelviewBelow } else d
    | _ => d
  | .popMatrix =>
    match d.matrixMode with
    | .projection =>
      match d.projectionBelow with
      | [] => d
      | m :: rest => { d with projection := m, projectionBelow := rest }
    | .modelview =>
      match d.modelviewBelow with
      | [] => d
      | m :: rest => { d with modelview := m, modelviewBelow := rest }
    | _ => d
  | .loadIdentity => d.setCurrent fun _ => .identity
  | .ortho width height => d.setCurrent fun m => .ortho width height m
  | .scissor x y w h => if w < 0 ∨ h < 0 then d else { d with scissorBox := (x, y, w, h) }
  | _ => d

/-- The state after a sequence of calls. -/
def run (d : Device) (calls : List GLCall) : Device := calls.foldl exec d

end Device

/-- A device in its initial state for an 800 x 600 window, with the minimum stack depths
the specification grants. -/
def freshDevice : Device where
  blend := false
  cullFace := false
  depthTest := false
  scissorTest := false
  texture2D := false
  blendFunc := (1, 0)
  vertexArray := false
  texCoordArray := false
  colorArray := false
  scissorBox := (0, 0, 800, 600)
  boundTexture := 0
  matrixMode := .modelview
  projection := .identity
  projectionBelow := []
  modelview := .identity
  modelviewBelow := []
  attribStack := []
  projectionDepth := 2
  modelviewDepth := 32
  attribDepth := 16

/-- One list with two commands of 3 and 6 vertices. -/
def sampleLists : List (DrawCallList Int) :=
  [⟨1, [⟨⟨10, 20, 30, 40⟩, 7, 3⟩, ⟨⟨0, 0, 800, 600⟩, 8, 6⟩]⟩]

/-- One list with one command of 2^31 vertices. -/
def hugeList : List (DrawCallList Int) := [⟨1, [⟨⟨10, 20, 30, 40⟩, 7, 2147483648⟩]⟩]

/-- One list with one command. -/
def oneCommandList : List (DrawCallList Int) := [⟨1, [⟨⟨10, 20, 30, 40⟩, 7, 3⟩]⟩]

/-! ## Properties of `ldbmp` -/

theorem wrapU32_of_lt {n : Nat} (h : n < 2 ^ 32) : wrapU32 n = n := Nat.mod_eq_of_lt h

theorem wrapI32_of_range {z : Int} (h0 : -2 ^ 31 ≤ z) (h1 : z < 2 ^ 31) : wrapI32 z = z := by
  unfold wrapI32
  rw [Int.emod_eq_of_lt (by omega) (by omega)]
  omega

theorem execCopies_append (data : Buffer) (a b : List Copy) (mem : List Byte) :
    execCopies data (a ++ b) mem = (execCopies data a mem).bind (execCopies data b) := by
  induction a generalizing mem with
  | nil => rfl
  | cons c cs ih =>
    simp only [List.cons_append, execCopies]
    cases copyByte data mem c with
    | none => rfl
    | some m => exact ih m

theorem decodeRow_eq (data : Buffer) (reader n j : Nat) (writer : Int) (mem : List Byte) :
    decodeRow data reader n j writer mem = execCopies data (rowAccesses reader n j writer) mem := by
  induction n generalizing j writer mem with
  | zero => rfl
  | succ n ih =>
    simp only [decodeRow, rowAccesses, execCopies_append]
    cases execCopies data (pixelCopies reader j writer) mem with
    | none => rfl
    | some m => exact ih _ _ m

theorem decodeRows_eq (data : Buffer) (W n reader : Nat) (mem : List Byte) :
    decodeRows data W n reader mem = execCopies data (rowsAccesses W n reader) mem := by
  induction n generalizing reader mem with
  | zero => rfl
  | succ n ih =>
    simp only [decodeRows, rowsAccesses, execCopies_append, decodeRow_eq]
    cases execCopies data (rowAccesses reader W 0 _) mem with
    | none => rfl
    | some m => exact ih _ m

theorem decodeLoop_eq (data : Buffer) (ioff W H : Nat) (mem : List Byte) :
    decodeLoop data ioff W H mem = execCopies data (decodeAccesses ioff W H) mem :=
  decodeRows_eq data W _ ioff mem

/-- A copy inside both objects succeeds. -/
theorem copyByte_ok (data : Buffer) (mem : List Byte) (c : Copy)
    (hs : c.src < data.size) (h0 : 0 ≤ c.dst) (h1 : c.dst < mem.length) :
    copyByte data mem c = some (mem.set c.dst.toNat (data.byte c.src)) := by
  simp [copyByte, Buffer.read, hs, h0, h1]

theorem copyByte_some {data : Buffer} {mem mem1 : List Byte} {c : Copy}
    (h : copyByte data mem c = some mem1) :
    c.src < data.size ∧ 0 ≤ c.dst ∧ c.dst < mem.length ∧
      mem1 = mem.set c.dst.toNat (data.byte c.src) := by
  unfold copyByte Buffer.read at h
  split at h
  · simp at h
  · rename_i v hv
    split at hv
    · rename_i hlt
      split at h
      · rename_i hd
        simp at hv h
        exact ⟨hlt, hd.1, hd.2, by rw [← h, hv]⟩
      · simp at h
    · simp at hv

theorem execCopies_ok (data : Buffer) (cs : List Copy) (mem : List Byte)
    (h : ∀ c ∈ cs, c.src < data.size ∧ 0 ≤ c.dst ∧ c.dst < mem.length) :
    ∃ mem1, execCopies data cs mem = some mem1 ∧ mem1.length = mem.length := by
  induction cs generalizing mem with
  | nil => exact ⟨mem, rfl, rfl⟩
  | cons c cs ih =>
    obtain ⟨hs, h0, h1⟩ := h c (List.mem_cons_self _ _)
    simp only [execCopies, copyByte_ok data mem c hs h0 h1]
    obtain ⟨m, hm, hl⟩ := ih (mem.set c.dst.toNat (data.byte c.src)) (by
      intro c1 hc1
      simpa using h c1 (List.mem_cons_of_mem _ hc1))
    exact ⟨m, hm, by simpa using hl⟩

theorem execCopies_untouched {data : Buffer} {cs : List Copy} {mem mem1 : List Byte}
    (h : execCopies data cs mem = some mem1) (d : Nat)
    (hd : ∀ c ∈ cs, c.dst ≠ (d : Int)) : mem1[d]? = mem[d]? := by
  induction cs generalizing mem with
  | nil => simp [execCopies] at h; rw [h]
  | cons c cs ih =>
    simp only [execCopies] at h
    cases hc : copyByte data mem c with
    | none => simp [hc] at h
    | some m =>
      rw [hc] at h
      obtain ⟨_, h0, _, hm⟩ := copyByte_some hc
      rw [ih h (fun c1 hc1 => hd c1 (List.mem_cons_of_mem _ hc1)), hm]
      have hne : c.dst ≠ (d : Int) := hd c (List.mem_cons_self _ _)
      rw [List.getElem?_set_ne]
      omega

theorem execCopies_content {data : Buffer} {cs : List Copy} {mem mem1 : List Byte}
    (h : execCopies data cs mem = some mem1) (hnd : (cs.map Copy.dst).Nodup)
    (c : Copy) (hc : c ∈ cs) : mem1[c.dst.toNat]? = some (data.byte c.src) := by
  induction cs generalizing mem with
  | nil => simp at hc
  | cons c0 cs ih =>
    simp only [execCopies] at h
    cases hc0 : copyByte data mem c0 with
    | none => simp [hc0] at h
    | some m =>
      rw [hc0] at h
      simp only [List.map_cons, List.nodup_cons] at hnd
      rcases List.mem_cons.1 hc with rfl | hin
      · obtain ⟨_, h0, h1, hm⟩ := copyByte_some hc0
        rw [execCopies_untouched h c.dst.toNat (by
          intro c1 hc1 he
          apply hnd.1
          rw [Int.toNat_of_nonneg h0] at he
          rw [← he]
          exact List.mem_map_of_mem _ hc1), hm]
        rw [List.getElem?_set_self]
        omega
      · exact ih h hnd.2 hin

theorem rowPasses_of_lt {H : Nat} (h0 : 0 < H) (h1 : H < 2 ^ 31) : rowPasses H = H := by
  unfold rowPasses
  rw [wrapI32_of_range (z := (H : Int)) (by omega) (by omega),
    wrapI32_of_range (by omega) (by omega)]
  omega

theorem row_count_dst (reader n j : Nat) (writer d : Int) :
    ((rowAccesses reader n j writer).map Copy.dst).count d
      = if writer ≤ d ∧ d < writer + 4 * n then 1 else 0 := by
  induction n generalizing j writer with
  | zero =>
    simp only [rowAccesses, List.map_nil, List.count_nil]
    split_ifs with h
    · omega
    · rfl
  | succ n ih =>
    simp only [rowAccesses, pixelCopies, List.map_append, List.map_cons, List.map_nil,
      List.count_append, List.count_cons, List.count_nil, ih]
    simp only [beq_iff_eq]
    split_ifs <;> omega

theorem row_src_range (reader n j : Nat) (writer : Int) (hb : (j + n) * 4 ≤ 2 ^ 32) :
    ∀ c ∈ rowAccesses reader n j writer,
      reader + 4 * j ≤ c.src ∧ c.src < reader + 4 * (j + n) := by
  induction n generalizing j writer with
  | zero => simp [rowAccesses]
  | succ n ih =>
    intro c hc
    simp only [rowAccesses, List.mem_append] at hc
    rcases hc with hc | hc
    · have hw : wrapU32 (j * 4) = j * 4 := wrapU32_of_lt (by omega)
      simp only [pixelCopies, hw, List.mem_cons, List.mem_singleton, List.not_mem_nil,
        or_false] at hc
      rcases hc with rfl | rfl | rfl | rfl <;> simp <;> omega
    · have := ih (j + 1) (writer + 4) (by omega) c hc
      omega

theorem row_mem (reader n j : Nat) (writer : Int) (hb : (j + n) * 4 ≤ 2 ^ 32)
    (m k : Nat) (hm : m < n) (hk : k < 4) :
    (⟨writer + 4 * m + k, reader + 4 * (j + m) + channelSource.getD k 0⟩ : Copy)
      ∈ rowAccesses reader n j writer := by
  induction n generalizing j writer m with
  | zero => omega
  | succ n ih =>
    simp only [rowAccesses, List.mem_append]
    rcases Nat.eq_zero_or_pos m with rfl | hpos
    · left
      have hw : wrapU32 (j * 4) = j * 4 := wrapU32_of_lt (by omega)
      simp only [pixelCopies, hw]
      have : k = 0 ∨ k = 1 ∨ k = 2 ∨ k = 3 := by omega
      rcases this with rfl | rfl | rfl | rfl <;> simp [channelSource] <;> omega
    · right
      have := ih (j + 1) (writer + 4) (by omega) (m - 1) (by omega)
      have e1 : writer + 4 + 4 * ((m - 1 : Nat) : Int) = writer + 4 * (m : Int) := by omega
      have e2 : reader + 4 * (j + 1 + (m - 1)) = reader + 4 * (j + m) := by omega
      rw [e1, e2] at this
      exact this

theorem writer_nowrap {W i n : Nat} (hi : i < n) (hb : n * W * 4 < 2 ^ 31) :
    wrapI32 (wrapI32 ((i : Int) * wrapI32 W) * 4) = ((4 * (i * W) : Nat) : Int) := by
  have h1 : i * W ≤ (n - 1) * W := Nat.mul_le_mul_right W (by omega)
  have h2 : (n - 1) * W + W = n * W := by
    have : n = (n - 1) + 1 := by omega
    conv_rhs => rw [this, Nat.add_mul, Nat.one_mul]
  have hW : W < 2 ^ 31 := by
    have : 1 * W ≤ n * W := Nat.mul_le_mul_right W (by omega)
    omega
  rw [wrapI32_of_range (z := (W : Int)) (by omega) (by omega)]
  have e : (i : Int) * (W : Int) = ((i * W : Nat) : Int) := by push_cast; ring
  rw [e, wrapI32_of_range (z := ((i * W : Nat) : Int)) (by omega) (by omega),
    wrapI32_of_range (by omega) (by omega)]
  omega

theorem rows_count_dst (W n reader : Nat) (d : Int) (hb : n * W * 4 < 2 ^ 31) :
    ((rowsAccesses W n reader).map Copy.dst).count d
      = if 0 ≤ d ∧ d < ((n * W * 4 : Nat) : Int) then 1 else 0 := by
  induction n generalizing reader with
  | zero =>
    simp only [rowsAccesses, List.map_nil, List.count_nil]
    split_ifs with h
    · omega
    · rfl
  | succ n ih =>
    have hb1 : n * W * 4 < 2 ^ 31 := by
      have : n * W ≤ (n + 1) * W := Nat.mul_le_mul_right W (by omega)
      omega
    have e : (n + 1) * W * 4 = n * W * 4 + 4 * W := by ring
    simp only [rowsAccesses, List.map_append, List.count_append, row_count_dst, ih _ hb1,
      writer_nowrap (Nat.lt_succ_self n) hb]
    rw [e]
    split_ifs <;> omega

theorem rows_src_range (W n reader : Nat) (hb : n * W * 4 < 2 ^ 31) :
    ∀ c ∈ rowsAccesses W n reader, reader ≤ c.src ∧ c.src < reader + n * W * 4 := by
  induction n generalizing reader with
  | zero => simp [rowsAccesses]
  | succ n ih =>
    have hle : n * W ≤ (n + 1) * W := Nat.mul_le_mul_right W (by omega)
    have e : (n + 1) * W * 4 = n * W * 4 + 4 * W := by ring
    have hw : wrapU32 (W * 4) = W * 4 := wrapU32_of_lt (by omega)
    intro c hc
    simp only [rowsAccesses, List.mem_append] at hc
    rcases hc with hc | hc
    · have := row_src_range reader W 0 _ (by omega) c hc
      omega
    · rw [hw] at hc
      have := ih (reader + W * 4) (by omega) c hc
      omega

theorem rows_mem (W n reader : Nat) (hb : n * W * 4 < 2 ^ 31)
    (r c k : Nat) (hr : r < n) (hc : c < W) (hk : k < 4) :
    (⟨((4 * (r * W + c) + k : Nat) : Int),
        reader + 4 * ((n - 1 - r) * W + c) + channelSource.getD k 0⟩ : Copy)
      ∈ rowsAccesses W n reader := by
  induction n generalizing reader with
  | zero => omega
  | succ n ih =>
    have hle : n * W ≤ (n + 1) * W := Nat.mul_le_mul_right W (by omega)
    have e : (n + 1) * W * 4 = n * W * 4 + 4 * W := by ring
    have hw : wrapU32 (W * 4) = W * 4 := wrapU32_of_lt (by omega)
    simp only [rowsAccesses, List.mem_append]
    rcases Nat.lt_succ_iff_lt_or_eq.1 hr with hlt | rfl
    · right
      have := ih (reader + wrapU32 (W * 4)) (by omega) hlt
      have e2 : reader + wrapU32 (W * 4) + 4 * ((n - 1 - r) * W + c)
          = reader + 4 * ((n + 1 - 1 - r) * W + c) := by
        rw [hw]
        have : n + 1 - 1 - r = (n - 1 - r) + 1 := by omega
        rw [this]
        ring
      rw [e2] at this
      exact this
    · left
      rw [writer_nowrap (Nat.lt_succ_self r) hb]
      have := row_mem reader W 0 ((4 * (r * W) : Nat) : Int) (by omega) c k hc hk
      have e1 : ((4 * (r * W) : Nat) : Int) + 4 * (c : Int) + (k : Int)
          = ((4 * (r * W + c) + k : Nat) : Int) := by push_cast; ring
      have e2 : reader + 4 * (0 + c) = reader + 4 * ((r + 1 - 1 - r) * W + c) := by
        have : r + 1 - 1 - r = 0 := by omega
        rw [this]; simp
      rw [e1, e2] at this
      exact this


theorem targetSize_of_lt {W H : Nat} (hb : W * H * 4 < 2 ^ 31) : targetSize W H = W * H * 4 := by
  unfold targetSize
  rw [wrapU32_of_lt (n := W * H) (by omega), wrapU32_of_lt (by omega)]

theorem rd32_readable {b : Buffer} {off v : Nat} (h : rd32 b off = some v) : off + 3 < b.size := by
  unfold rd32 Buffer.read at h
  by_contra hc
  rw [if_neg hc] at h
  split at h <;> simp_all

theorem rd32_some (b : Buffer) (off : Nat) (h : off + 3 < b.size) : ∃ v, rd32 b off = some v := by
  unfold rd32 Buffer.read
  rw [if_pos (by omega), if_pos (by omega), if_pos (by omega), if_pos h]
  exact ⟨_, rfl⟩

/-- The decode loop on a zeroed block of the right size, when no 32-bit quantity wraps
and the source holds the pixel data. -/
theorem decodeLoop_spec (data : Buffer) (ioff W H : Nat) (hW : 0 < W) (hH : 0 < H)
    (hb : W * H * 4 < 2 ^ 31) (hsize : ioff + W * H * 4 ≤ data.size) :
    ∃ P : List Byte,
      decodeLoop data ioff W H (zeroBlock (W * H * 4)) = some P ∧
      P.length = W * H * 4 ∧
      ∀ r c k, r < H → c < W → k < 4 →
        P[(r * W + c) * 4 + k]?
          = some (data.byte (ioff + ((H - 1 - r) * W + c) * 4 + channelSource.getD k 0)) := by
  have hcomm : H * W * 4 = W * H * 4 := by rw [Nat.mul_comm H W]
  have hWH : H * W * 4 < 2 ^ 31 := by rw [hcomm]; exact hb
  have hHlt : H < 2 ^ 31 := by
    have : H * 1 ≤ H * W := Nat.mul_le_mul_left H hW
    omega
  have hacc : decodeAccesses ioff W H = rowsAccesses W H ioff := by
    unfold decodeAccesses; rw [rowPasses_of_lt hH hHlt]
  have hcount := fun d => rows_count_dst W H ioff d hWH
  have hin : ∀ c ∈ rowsAccesses W H ioff,
      c.src < data.size ∧ 0 ≤ c.dst ∧ c.dst < (zeroBlock (W * H * 4)).length := by
    intro c hc
    have hs := rows_src_range W H ioff hWH c hc
    have hpos : 0 < ((rowsAccesses W H ioff).map Copy.dst).count c.dst :=
      List.count_pos_iff.2 (List.mem_map_of_mem _ hc)
    rw [hcount] at hpos
    split_ifs at hpos with hd
    · simp only [zeroBlock, List.length_replicate]
      omega
    · omega
  obtain ⟨P, hP, hlen⟩ := execCopies_ok data _ _ hin
  refine ⟨P, ?_, by simpa [zeroBlock] using hlen, ?_⟩
  · rw [decodeLoop_eq, hacc]; exact hP
  · intro r c k hr hc hk
    have hnd : ((rowsAccesses W H ioff).map Copy.dst).Nodup := by
      rw [List.nodup_iff_count_le_one]
      intro d
      rw [hcount]
      split_ifs <;> omega
    have hm := rows_mem W H ioff hWH r c k hr hc hk
    have := execCopies_content hP hnd _ hm
    simp only [Int.toNat_ofNat] at this
    have e1 : 4 * (r * W + c) + k = (r * W + c) * 4 + k := by omega
    have e2 : ioff + 4 * ((H - 1 - r) * W + c) = ioff + ((H - 1 - r) * W + c) * 4 := by omega
    rw [e1, e2] at this
    exact this

/-- After the two null checks and the signature check, with the three header fields
read, `ldbmp` continues with the size check. -/
theorem ldbmp_after_header (env : Env) (data : Buffer) (W H ioff : Nat)
    (hB : data.read 0 = some 66) (hM : data.read 1 = some 77)
    (hWf : rd32 data 0x12 = some W) (hHf : rd32 data 0x16 = some H)
    (hoff : rd32 data 0x0A = some ioff) :
    ldbmp env data true true = ldbmpDecode env data W H ioff := by
  unfold ldbmp
  simp only [hB, hM, hWf, hHf, hoff]
  simp

/-- When the decode loop ends with the block `P`, `ldbmp` uploads `P` and returns. -/
theorem ldbmpDecode_ok (env : Env) (data : Buffer) (W H ioff : Nat) (P : List Byte)
    (hB : data.read 0 = some 66) (hM : data.read 1 = some 77)
    (hWf : rd32 data 0x12 = some W) (hHf : rd32 data 0x16 = some H)
    (hoff : rd32 data 0x0A = some ioff)
    (hW : 0 < W) (hH : 0 < H) (hb : W * H * 4 < 2 ^ 31)
    (hmem : env.allocOk (W * H * 4) = true)
    (hdec : decodeLoop data ioff W H (zeroBlock (W * H * 4)) = some P) :
    ldbmp env data true true
      = ⟨.calloc (W * H * 4) 1 :: uploadEvents env W H P, .ret ⟨env.texName, W, H⟩⟩ := by
  rw [ldbmp_after_header env data W H ioff hB hM hWf hHf hoff]
  have hpos : ¬ (W ≤ 0 ∨ H ≤ 0) := by omega
  unfold ldbmpDecode
  have hm : ¬ (env.allocOk (W * H * 4) = false) := by simp [hmem]
  rw [targetSize_of_lt hb, if_neg hpos, if_neg hm, hdec]

/-- Claim C1, amended with the bound W * H * 4 < 2 ^ 31: for an image buffer that starts
with 'B','M', whose width field W (byte 0x12) and height field H (byte 0x16) are positive,
whose pixel-data offset field (byte 0x0A) is ioff, and that holds at least ioff + W*H*4
bytes, `ldbmp` (both result pointers non-null, the pixel block granted) reports width W and
height H and uploads a pixel buffer P of exactly W*H*4 bytes with
P[(r*W + c)*4 + k] = data[ioff + ((H-1-r)*W + c)*4 + s(k)] for all r < H, c < W, k < 4,
where s = [1,2,3,0]; so output row 0 is the last source row. -/
theorem ldbmp_decodes (env : Env) (data : Buffer) (W H ioff : Nat)
    (hB : data.read 0 = some 66) (hM : data.read 1 = some 77)
    (hWf : rd32 data 0x12 = some W) (hHf : rd32 data 0x16 = some H)
    (hoff : rd32 data 0x0A = some ioff)
    (hW : 0 < W) (hH : 0 < H) (hb : W * H * 4 < 2 ^ 31)
    (hsize : ioff + W * H * 4 ≤ data.size)
    (hmem : env.allocOk (W * H * 4) = true) :
    ∃ P : List Byte,
      ldbmp env data true true
        = ⟨.calloc (W * H * 4) 1 :: uploadEvents env W H P, .ret ⟨env.texName, W, H⟩⟩ ∧
      P.length = W * H * 4 ∧
      ∀ r c k, r < H → c < W → k < 4 →
        P[(r * W + c) * 4 + k]?
          = some (data.byte (ioff + ((H - 1 - r) * W + c) * 4 + channelSource.getD k 0)) := by
  obtain ⟨P, hP, hlen, hpix⟩ := decodeLoop_spec data ioff W H hW hH hb hsize
  refine ⟨P, ?_, hlen, hpix⟩
  rw [ldbmp_after_header env data W H ioff hB hM hWf hHf hoff]
  have hpos : ¬ (W ≤ 0 ∨ H ≤ 0) := by omega
  unfold ldbmpDecode
  have hm : ¬ (env.allocOk (W * H * 4) = false) := by simp [hmem]
  rw [targetSize_of_lt hb, if_neg hpos, if_neg hm, hP]

/-- Claim C1, amended, at the 2 x 2 sample image. -/
theorem ldbmp_decodes_witness :
    ∃ P : List Byte,
      ldbmp sampleEnv sampleBmp true true
        = ⟨.calloc (2 * 2 * 4) 1 :: uploadEvents sampleEnv 2 2 P, .ret ⟨sampleEnv.texName, 2, 2⟩⟩ ∧
      P.length = 2 * 2 * 4 ∧
      ∀ r c k, r < 2 → c < 2 → k < 4 →
        P[(r * 2 + c) * 4 + k]?
          = some (sampleBmp.byte (26 + ((2 - 1 - r) * 2 + c) * 4 + channelSource.getD k 0)) :=
  ldbmp_decodes sampleEnv sampleBmp 2 2 26 (by decide) (by decide) (by decide) (by decide)
    (by decide) (by decide) (by decide) (by decide) (by decide) (by decide)

/-- Claim C1 as stated fails for a 2^30 x 1 image: every premise holds (signature, positive
width and height, offset 26, 26 + 2^32 bytes present), but `*width * *height * 4` wraps to 0
in `uint32_t`, a block of 0 bytes is requested, and the first write of the decode loop
leaves it (or, where `calloc(0, 1)` yields no block, the process dies for lack of memory);
no pixel buffer of 2^32 bytes is produced. -/
theorem ldbmp_wide_image_faults :
    wideBmp.read 0 = some 66 ∧ wideBmp.read 1 = some 77 ∧
    rd32 wideBmp 0x12 = some (2 ^ 30) ∧ rd32 wideBmp 0x16 = some 1 ∧
    rd32 wideBmp 0x0A = some 26 ∧ 26 + 2 ^ 30 * 1 * 4 ≤ wideBmp.size ∧
    sampleEnv.allocOk 0 = true ∧
    ldbmp sampleEnv wideBmp true true = ⟨[.calloc 0 1], .fault⟩ ∧
    ldbmp ⟨fun _ => false, 7⟩ wideBmp true true = ⟨[.calloc 0 1], .die .outOfMemory⟩ := by
  decide

/-- Claim C2: for every image buffer whose first two bytes are not 'B','M', `ldbmp` (both
result pointers non-null) ends in `die` with the invalid-file message whatever the rest of
the buffer holds, and it has requested no memory and issued no device call by then. -/
theorem ldbmp_rejects_bad_signature (env : Env) (data : Buffer) (hsize : 2 ≤ data.size)
    (hsig : ¬ (data.byte 0 = 66 ∧ data.byte 1 = 77)) :
    ldbmp env data true true = ⟨[], .die .bmpInvalidFile⟩ := by
  have h0 : data.read 0 = some (data.byte 0) := by simp [Buffer.read]; omega
  have h1 : data.read 1 = some (data.byte 1) := by simp [Buffer.read]; omega
  unfold ldbmp
  simp only [h0, h1]
  by_cases hb : data.byte 0 = 66
  · have hm : data.byte 1 ≠ 77 := fun h => hsig ⟨hb, h⟩
    simp [hb, hm]
  · simp [hb]

/-- Claim C2 at a buffer starting with 'A','M'. -/
theorem ldbmp_rejects_bad_signature_witness :
    2 ≤ badMagicBmp.size ∧ ¬ (badMagicBmp.byte 0 = 66 ∧ badMagicBmp.byte 1 = 77) ∧
    ldbmp sampleEnv badMagicBmp true true = ⟨[], .die .bmpInvalidFile⟩ :=
  ⟨by decide, by decide, ldbmp_rejects_bad_signature sampleEnv badMagicBmp (by decide) (by decide)⟩

/-- Claim C3 as stated fails for a height field of 0xC0000001, which is -1073741823 as a
signed 32-bit value: `*height` is a `uint32_t`, the test `*height <= 0` does not fire, a
4-byte block is requested, the decode loop makes no pass, and the zeroed block is
uploaded as a texture. -/
theorem ldbmp_accepts_negative_height :
    negHeightBmp.read 0 = some 66 ∧ negHeightBmp.read 1 = some 77 ∧
    rd32 negHeightBmp 0x12 = some 1 ∧ rd32 negHeightBmp 0x16 = some 0xC0000001 ∧
    wrapI32 0xC0000001 = -1073741823 ∧
    ldbmp sampleEnv negHeightBmp true true
      = ⟨.calloc 4 1 :: uploadEvents sampleEnv 1 0xC0000001 [0, 0, 0, 0],
          .ret ⟨7, 1, 0xC0000001⟩⟩ := by
  decide

/-- Claim C3, amended to fields read as unsigned 32-bit values: for every image buffer with
a valid 'B','M' signature whose width field or height field is zero, `ldbmp` ends in `die`
with the invalid-image-size message, having requested no memory and issued no device
call. -/
theorem ldbmp_rejects_zero_size (env : Env) (data : Buffer) (W H : Nat)
    (hB : data.read 0 = some 66) (hM : data.read 1 = some 77)
    (hWf : rd32 data 0x12 = some W) (hHf : rd32 data 0x16 = some H)
    (hz : W = 0 ∨ H = 0) :
    ldbmp env data true true = ⟨[], .die .bmpInvalidSize⟩ := by
  obtain ⟨ioff, hoff⟩ := rd32_some data 0x0A (by have := rd32_readable hHf; omega)
  rw [ldbmp_after_header env data W H ioff hB hM hWf hHf hoff]
  have hle : W ≤ 0 ∨ H ≤ 0 := by omega
  unfold ldbmpDecode
  rw [if_pos hle]

/-- Claim C3, amended, at a header announcing width 0. -/
theorem ldbmp_rejects_zero_size_witness :
    ldbmp sampleEnv zeroWidthBmp true true = ⟨[], .die .bmpInvalidSize⟩ :=
  ldbmp_rejects_zero_size sampleEnv zeroWidthBmp 0 2 (by decide) (by decide) (by decide)
    (by decide) (by decide)

/-- Claim C10: for every W > 0 and H > 0 with W*H*4 < 2^31, the decode loop of `ldbmp`
performs exactly the byte copies of `decodeAccesses`; each target offset in [0, W*H*4) is
written exactly once and no other offset is written; every source offset read lies in
[ioff, ioff + W*H*4). -/
theorem decode_accesses_safe (W H ioff : Nat) (hW : 0 < W) (hH : 0 < H)
    (hb : W * H * 4 < 2 ^ 31) :
    (∀ (data : Buffer) (mem : List Byte),
        decodeLoop data ioff W H mem = execCopies data (decodeAccesses ioff W H) mem) ∧
    (∀ d : Int, ((decodeAccesses ioff W H).map Copy.dst).count d
        = if 0 ≤ d ∧ d < ((W * H * 4 : Nat) : Int) then 1 else 0) ∧
    (∀ c ∈ decodeAccesses ioff W H, ioff ≤ c.src ∧ c.src < ioff + W * H * 4) := by
  have hcomm : H * W * 4 = W * H * 4 := by rw [Nat.mul_comm H W]
  have hWH : H * W * 4 < 2 ^ 31 := by rw [hcomm]; exact hb
  have hHlt : H < 2 ^ 31 := by
    have : H * 1 ≤ H * W := Nat.mul_le_mul_left H hW
    omega
  have hacc : decodeAccesses ioff W H = rowsAccesses W H ioff := by
    unfold decodeAccesses; rw [rowPasses_of_lt hH hHlt]
  refine ⟨fun data mem => decodeLoop_eq data ioff W H mem, ?_, ?_⟩
  · intro d
    rw [hacc, rows_count_dst W H ioff d hWH, hcomm]
  · intro c hc
    rw [hacc] at hc
    have := rows_src_range W H ioff hWH c hc
    rw [hcomm] at this
    exact this

/-- Claim C10 at a 2 x 2 image with pixel data at offset 26. -/
theorem decode_accesses_safe_witness :
    (∀ (data : Buffer) (mem : List Byte),
        decodeLoop data 26 2 2 mem = execCopies data (decodeAccesses 26 2 2) mem) ∧
    (∀ d : Int, ((decodeAccesses 26 2 2).map Copy.dst).count d
        = if 0 ≤ d ∧ d < ((2 * 2 * 4 : Nat) : Int) then 1 else 0) ∧
    (∀ c ∈ decodeAccesses 26 2 2, 26 ≤ c.src ∧ c.src < 26 + 2 * 2 * 4) :=
  decode_accesses_safe 2 2 26 (by decide) (by decide) (by decide)


theorem le32_value (v : Nat) (hv : v < 2 ^ 32) :
    v % 256 % 256 + 256 * (v / 256 % 256 % 256) + 65536 * (v / 65536 % 256 % 256)
      + 16777216 * (v / 16777216 % 256 % 256) = v := by
  omega

theorem encodeBmp_header_read (ioff W H : Nat) (P : List Byte) (i : Nat) (hi : i < 26)
    (hoff : 26 ≤ ioff) :
    (encodeBmp ioff W H P).read i = some ((bmpHeader ioff W H).getD i 0) := by
  have h1 : i < ioff + W * H * 4 := by omega
  simp only [Buffer.read, encodeBmp, hi, h1, if_true]

theorem encodeBmp_magic (ioff W H : Nat) (P : List Byte) (hoff : 26 ≤ ioff) :
    (encodeBmp ioff W H P).read 0 = some 66 ∧ (encodeBmp ioff W H P).read 1 = some 77 := by
  rw [encodeBmp_header_read _ _ _ _ 0 (by omega) hoff,
    encodeBmp_header_read _ _ _ _ 1 (by omega) hoff]
  exact ⟨rfl, rfl⟩

theorem encodeBmp_fields (ioff W H : Nat) (P : List Byte) (hoff : 26 ≤ ioff)
    (hoff2 : ioff < 2 ^ 32) (hW : W < 2 ^ 32) (hH : H < 2 ^ 32) :
    rd32 (encodeBmp ioff W H P) 0x12 = some W ∧ rd32 (encodeBmp ioff W H P) 0x16 = some H ∧
      rd32 (encodeBmp ioff W H P) 0x0A = some ioff := by
  unfold rd32
  simp only [encodeBmp_header_read _ _ _ _ _ (show 0x12 < 26 by omega) hoff,
    encodeBmp_header_read _ _ _ _ _ (show 0x12 + 1 < 26 by omega) hoff,
    encodeBmp_header_read _ _ _ _ _ (show 0x12 + 2 < 26 by omega) hoff,
    encodeBmp_header_read _ _ _ _ _ (show 0x12 + 3 < 26 by omega) hoff,
    encodeBmp_header_read _ _ _ _ _ (show 0x16 < 26 by omega) hoff,
    encodeBmp_header_read _ _ _ _ _ (show 0x16 + 1 < 26 by omega) hoff,
    encodeBmp_header_read _ _ _ _ _ (show 0x16 + 2 < 26 by omega) hoff,
    encodeBmp_header_read _ _ _ _ _ (show 0x16 + 3 < 26 by omega) hoff,
    encodeBmp_header_read _ _ _ _ _ (show 0x0A < 26 by omega) hoff,
    encodeBmp_header_read _ _ _ _ _ (show 0x0A + 1 < 26 by omega) hoff,
    encodeBmp_header_read _ _ _ _ _ (show 0x0A + 2 < 26 by omega) hoff,
    encodeBmp_header_read _ _ _ _ _ (show 0x0A + 3 < 26 by omega) hoff]
  refine ⟨congrArg some ?_, congrArg some ?_, congrArg some ?_⟩
  · exact le32_value W hW
  · exact le32_value H hH
  · exact le32_value ioff hoff2

theorem channelAt_source (k : Nat) (hk : k < 4) :
    channelSource.getD k 0 < 4 ∧ channelAt.getD (channelSource.getD k 0) 0 = k := by
  have : k = 0 ∨ k = 1 ∨ k = 2 ∨ k = 3 := by omega
  rcases this with rfl | rfl | rfl | rfl <;> exact ⟨by decide, by decide⟩

/-- The byte the encoder places where the decoder looks for canonical byte `k` of the
pixel in row `r`, column `c`. -/
theorem encodeBmp_pixel (ioff W H : Nat) (P : List Byte) (hoff : 26 ≤ ioff)
    (r c k : Nat) (hr : r < H) (hc : c < W) (hk : k < 4) :
    (encodeBmp ioff W H P).byte (ioff + ((H - 1 - r) * W + c) * 4 + channelSource.getD k 0)
      = P.getD ((r * W + c) * 4 + k) 0 := by
  obtain ⟨hs, hinv⟩ := channelAt_source k hk
  generalize channelSource.getD k 0 = s at hs hinv
  have hlt : c * 4 + s < W * 4 := by omega
  have e : ioff + ((H - 1 - r) * W + c) * 4 + s - ioff = c * 4 + s + (H - 1 - r) * (W * 4) := by
    have : ((H - 1 - r) * W + c) * 4 = (H - 1 - r) * (W * 4) + c * 4 := by ring
    omega
  have hdiv : (c * 4 + s + (H - 1 - r) * (W * 4)) / (W * 4) = H - 1 - r := by
    rw [Nat.add_mul_div_right _ _ (by omega), Nat.div_eq_of_lt hlt, Nat.zero_add]
  have hmod : (c * 4 + s + (H - 1 - r) * (W * 4)) % (W * 4) = c * 4 + s := by
    rw [Nat.add_mul_mod_self_right, Nat.mod_eq_of_lt hlt]
  have hmod4 : (c * 4 + s + (H - 1 - r) * (W * 4)) % 4 = s := by
    have : (H - 1 - r) * (W * 4) = ((H - 1 - r) * W) * 4 := by ring
    omega
  have h26 : ¬ (ioff + ((H - 1 - r) * W + c) * 4 + s < 26) := by omega
  have hge : ioff ≤ ioff + ((H - 1 - r) * W + c) * 4 + s := by omega
  simp only [encodeBmp, h26, hge, if_true, if_false, e, hdiv, hmod, hmod4, hinv]
  have e2 : H - 1 - (H - 1 - r) = r := by omega
  have e3 : (c * 4 + s) / 4 = c := by omega
  rw [e2, e3]

theorem pixel_index (W H idx : Nat) (hW : 0 < W) (h : idx < W * H * 4) :
    idx / 4 / W < H ∧ idx / 4 % W < W ∧ idx % 4 < 4 ∧
      (idx / 4 / W * W + idx / 4 % W) * 4 + idx % 4 = idx := by
  have h1 : idx / 4 < W * H := by omega
  refine ⟨(Nat.div_lt_iff_lt_mul hW).2 (by rw [Nat.mul_comm]; exact h1), Nat.mod_lt _ hW,
    by omega, ?_⟩
  have := Nat.div_add_mod' (idx / 4) W
  rw [this]
  omega

/-- Claim C9, amended with the bound W * H * 4 < 2 ^ 31 and a pixel-data offset that lies
behind the 26 header bytes and fits its 4-byte field: encoding a canonical pixel buffer P
of W*H*4 bytes with the convention of the format and decoding the result with `ldbmp`
uploads P again, byte for byte; and for every valid image buffer, decoding it, encoding
the result and decoding again gives the first decoding. -/
theorem bmp_roundtrip (env : Env) (ioff W H : Nat) (hW : 0 < W) (hH : 0 < H)
    (hb : W * H * 4 < 2 ^ 31) (hoff : 26 ≤ ioff) (hoff2 : ioff < 2 ^ 32)
    (hmem : env.allocOk (W * H * 4) = true) :
    (∀ P : List Byte, P.length = W * H * 4 →
      ldbmp env (encodeBmp ioff W H P) true true
        = ⟨.calloc (W * H * 4) 1 :: uploadEvents env W H P, .ret ⟨env.texName, W, H⟩⟩) ∧
    (∀ (data : Buffer) (doff : Nat), data.read 0 = some 66 → data.read 1 = some 77 →
      rd32 data 0x12 = some W → rd32 data 0x16 = some H → rd32 data 0x0A = some doff →
      doff + W * H * 4 ≤ data.size →
      ∃ Q : List Byte,
        ldbmp env data true true
          = ⟨.calloc (W * H * 4) 1 :: uploadEvents env W H Q, .ret ⟨env.texName, W, H⟩⟩ ∧
        ldbmp env (encodeBmp ioff W H Q) true true
          = ⟨.calloc (W * H * 4) 1 :: uploadEvents env W H Q, .ret ⟨env.texName, W, H⟩⟩) := by
  have hWlt : W < 2 ^ 32 := by
    have : W * 1 ≤ W * H := Nat.mul_le_mul_left W hH
    omega
  have hHlt : H < 2 ^ 32 := by
    have : 1 * H ≤ W * H := Nat.mul_le_mul_right H hW
    omega
  have first : ∀ P : List Byte, P.length = W * H * 4 →
      ldbmp env (encodeBmp ioff W H P) true true
        = ⟨.calloc (W * H * 4) 1 :: uploadEvents env W H P, .ret ⟨env.texName, W, H⟩⟩ := by
    intro P hP
    obtain ⟨hB, hM⟩ := encodeBmp_magic ioff W H P hoff
    obtain ⟨hWf, hHf, hof⟩ := encodeBmp_fields ioff W H P hoff hoff2 hWlt hHlt
    obtain ⟨Q, hdec, hlen, hpix⟩ := decodeLoop_spec (encodeBmp ioff W H P) ioff W H hW hH hb
      (le_refl _)
    have hQ : ldbmp env (encodeBmp ioff W H P) true true
        = ⟨.calloc (W * H * 4) 1 :: uploadEvents env W H Q, .ret ⟨env.texName, W, H⟩⟩ :=
      ldbmpDecode_ok env _ W H ioff Q hB hM hWf hHf hof hW hH hb hmem hdec
    have hQP : Q = P := by
      apply List.ext_getElem?
      intro idx
      by_cases hidx : idx < W * H * 4
      · obtain ⟨hr, hc, hk, he⟩ := pixel_index W H idx hW hidx
        have h1 := hpix _ _ _ hr hc hk
        rw [encodeBmp_pixel ioff W H P hoff _ _ _ hr hc hk, he] at h1
        rw [h1, List.getD_eq_getElem?_getD, List.getElem?_eq_getElem (by omega)]
        rfl
      · rw [List.getElem?_eq_none (by omega), List.getElem?_eq_none (by omega)]
    rw [hQ, hQP]
  refine ⟨first, ?_⟩
  intro data doff hB hM hWf hHf hof hsz
  obtain ⟨Q, hdec, hlen, _⟩ := decodeLoop_spec data doff W H hW hH hb hsz
  exact ⟨Q, ldbmpDecode_ok env data W H doff Q hB hM hWf hHf hof hW hH hb hmem hdec,
    first Q hlen⟩

/-- Claim C9, amended, at 2 x 2 images. -/
theorem bmp_roundtrip_witness :
    (∀ P : List Byte, P.length = 2 * 2 * 4 →
      ldbmp sampleEnv (encodeBmp 26 2 2 P) true true
        = ⟨.calloc (2 * 2 * 4) 1 :: uploadEvents sampleEnv 2 2 P,
            .ret ⟨sampleEnv.texName, 2, 2⟩⟩) ∧
    (∀ (data : Buffer) (doff : Nat), data.read 0 = some 66 → data.read 1 = some 77 →
      rd32 data 0x12 = some 2 → rd32 data 0x16 = some 2 → rd32 data 0x0A = some doff →
      doff + 2 * 2 * 4 ≤ data.size →
      ∃ Q : List Byte,
        ldbmp sampleEnv data true true
          = ⟨.calloc (2 * 2 * 4) 1 :: uploadEvents sampleEnv 2 2 Q,
              .ret ⟨sampleEnv.texName, 2, 2⟩⟩ ∧
        ldbmp sampleEnv (encodeBmp 26 2 2 Q) true true
          = ⟨.calloc (2 * 2 * 4) 1 :: uploadEvents sampleEnv 2 2 Q,
              .ret ⟨sampleEnv.texName, 2, 2⟩⟩) :=
  bmp_roundtrip sampleEnv 26 2 2 (by decide) (by decide) (by decide) (by decide) (by decide)
    (by decide)

/-- Claim C9 as stated fails for W = 2^30 + 1, H = 1: the encoded image of a pixel buffer of
2^32 + 4 bytes makes `ldbmp` request `(W * H * 4) mod 2^32 = 4` bytes, and the write of the
second pixel leaves that block. -/
theorem bmp_roundtrip_fails_when_size_wraps :
    (List.replicate (2 ^ 32 + 4) (0 : Byte)).length = (2 ^ 30 + 1) * 1 * 4 ∧
    sampleEnv.allocOk 4 = true ∧
    ldbmp sampleEnv (encodeBmp 26 (2 ^ 30 + 1) 1 (List.replicate (2 ^ 32 + 4) 0)) true true
      = ⟨[.calloc 4 1], .fault⟩ :=
  ⟨by rw [List.length_replicate]; norm_num, by decide, by decide⟩


/-! ## Properties of `ldfont` -/

theorem F32.zero_inUnit : F32.zero.InUnit :=
  ⟨0, by simp [F32.zero, F32.toRat], le_refl _, by norm_num⟩

theorem roundHalfEven_le (n d k : Nat) (hd : 0 < d) (h : n ≤ d * k) : roundHalfEven n d ≤ k := by
  have hq : n / d ≤ k := by
    calc n / d ≤ d * k / d := Nat.div_le_div_right h
      _ = k := Nat.mul_div_cancel_left k hd
  have hdm := Nat.div_add_mod n d
  unfold roundHalfEven
  split_ifs with hc
  · have hr : 0 < n % d := by omega
    have hlt : d * (n / d) < d * k := by omega
    have := Nat.lt_of_mul_lt_mul_left hlt
    omega
  · exact hq

theorem bitLength_spec (fuel n : Nat) (h : n ≤ fuel) :
    n < 2 ^ bitLength fuel n ∧ (n ≠ 0 → 2 ^ (bitLength fuel n - 1) ≤ n) := by
  induction fuel generalizing n with
  | zero =>
    have : n = 0 := by omega
    subst this
    simp [bitLength]
  | succ fuel ih =>
    unfold bitLength
    split_ifs with h0
    · subst h0; simp
    · obtain ⟨h1, h2⟩ := ih (n / 2) (by omega)
      refine ⟨?_, fun _ => ?_⟩
      · rw [pow_succ]; omega
      · rw [Nat.add_sub_cancel]
        by_cases hz : n / 2 = 0
        · have : bitLength fuel (n / 2) = 0 := by
            rw [hz]; cases fuel <;> simp [bitLength]
          rw [this]; simp; omega
        · have h3 := h2 hz
          have hpos : 0 < bitLength fuel (n / 2) := by
            rcases Nat.eq_zero_or_pos (bitLength fuel (n / 2)) with h | h
            · rw [h] at h1; simp at h1; omega
            · exact h
          have e : bitLength fuel (n / 2) = (bitLength fuel (n / 2) - 1) + 1 := by omega
          rw [e, pow_succ]
          omega

theorem ilog2_mono {a b : Nat} (ha : a ≠ 0) (hab : a ≤ b) : ilog2 a ≤ ilog2 b := by
  have h1 := (bitLength_spec a a (le_refl _)).2 ha
  have h2 := (bitLength_spec b b (le_refl _)).1
  have hb : 0 < bitLength b b := by
    rcases Nat.eq_zero_or_pos (bitLength b b) with h | h
    · rw [h] at h2; simp at h2; omega
    · exact h
  have h3 : 2 ^ (bitLength a a - 1) < 2 ^ bitLength b b := by omega
  have := (Nat.pow_lt_pow_iff_right (by norm_num : 1 < 2)).1 h3
  unfold ilog2
  omega

theorem fdiv_inUnit (a b : Nat) (hb : 0 < b) (hab : a ≤ b) : (fdiv a b).InUnit := by
  unfold fdiv
  rw [if_neg (by omega)]
  split_ifs with ha
  · exact F32.zero_inUnit
  · have hlog : ilog2 a ≤ ilog2 b := ilog2_mono ha hab
    simp only
    generalize he : (if (scaledQuotient a b ((ilog2 a : Int) - (ilog2 b : Int) - 23)).1 /
        (scaledQuotient a b ((ilog2 a : Int) - (ilog2 b : Int) - 23)).2 < 2 ^ 23
        then (ilog2 a : Int) - (ilog2 b : Int) - 23 - 1
        else (ilog2 a : Int) - (ilog2 b : Int) - 23) = e
    have hneg : e ≤ 0 := by
      rw [← he]
      split_ifs <;> omega
    obtain ⟨k, rfl⟩ : ∃ k : Nat, e = -(k : Int) := ⟨e.natAbs, by omega⟩
    have hm : roundHalfEven (scaledQuotient a b (-(k : Int))).1 (scaledQuotient a b (-(k : Int))).2
        ≤ 2 ^ k := by
      apply roundHalfEven_le
      · simp [scaledQuotient]; omega
      · simp only [scaledQuotient, neg_neg, Int.toNat_ofNat]
        have : (-(k : Int)).toNat = 0 := by omega
        rw [this, pow_zero, Nat.mul_one]
        exact Nat.mul_le_mul_right _ hab
    refine ⟨_, rfl, by positivity, ?_⟩
    rw [zpow_neg, zpow_natCast]
    have h2 : (0 : ℚ) < 2 ^ k := by positivity
    rw [← div_eq_mul_inv, div_le_one h2]
    exact_mod_cast hm


theorem ilog2_spec {n : Nat} (hn : n ≠ 0) : 2 ^ ilog2 n ≤ n ∧ n < 2 ^ (ilog2 n + 1) := by
  obtain ⟨h1, h2⟩ := bitLength_spec n n (le_refl _)
  have hpos : 0 < bitLength n n := by
    rcases Nat.eq_zero_or_pos (bitLength n n) with h | h
    · rw [h] at h1; simp at h1; omega
    · exact h
  unfold ilog2
  refine ⟨h2 hn, ?_⟩
  have e : bitLength n n - 1 + 1 = bitLength n n := by omega
  rw [e]; exact h1

theorem roundHalfEven_near (n d : Nat) (hd : 0 < d) :
    2 * (roundHalfEven n d * d) ≤ 2 * n + d ∧ 2 * n ≤ 2 * (roundHalfEven n d * d) + d := by
  have hdm := Nat.div_add_mod n d
  have hlt := Nat.mod_lt n hd
  have hc : d * (n / d) = n / d * d := Nat.mul_comm _ _
  unfold roundHalfEven
  split_ifs with h
  · rw [Nat.add_mul]
    constructor <;> omega
  · constructor <;> omega

theorem scaledQuotient_ratio (a b : Nat) (e : Int) (hb : 0 < b) :
    0 < (scaledQuotient a b e).2 ∧
    ((scaledQuotient a b e).1 : ℚ) / ((scaledQuotient a b e).2 : ℚ)
      = (a : ℚ) / (b : ℚ) * (2 : ℚ) ^ (-e) := by
  have hbq : (b : ℚ) ≠ 0 := by exact_mod_cast (by omega : b ≠ 0)
  refine ⟨by simp only [scaledQuotient]; positivity, ?_⟩
  simp only [scaledQuotient, Nat.cast_mul, Nat.cast_pow, Nat.cast_ofNat]
  rcases le_total 0 e with h | h
  · obtain ⟨k, rfl⟩ : ∃ k : Nat, e = (k : Int) := ⟨e.toNat, by omega⟩
    have h1 : (-(k : Int)).toNat = 0 := by omega
    rw [h1, Int.toNat_ofNat, zpow_neg, zpow_natCast]
    field_simp
  · obtain ⟨k, rfl⟩ : ∃ k : Nat, e = -(k : Int) := ⟨(-e).toNat, by omega⟩
    have h1 : (-(k : Int)).toNat = 0 := by omega
    rw [h1, neg_neg, Int.toNat_ofNat, zpow_natCast]
    field_simp

/-- The rounded quotient of a scaled fraction that is at least `2 ^ 23` is within relative
error `2 ^ -24` of the fraction. -/
theorem roundHalfEven_rel (a b : Nat) (e : Int) (hb : 0 < b)
    (hbig : (2 : ℚ) ^ 23 ≤ (a : ℚ) / (b : ℚ) * (2 : ℚ) ^ (-e)) :
    |((roundHalfEven (scaledQuotient a b e).1 (scaledQuotient a b e).2 : Nat) : ℚ) * (2 : ℚ) ^ e
        - (a : ℚ) / (b : ℚ)| ≤ (a : ℚ) / (b : ℚ) / 2 ^ 24 := by
  obtain ⟨hd, hratio⟩ := scaledQuotient_ratio a b e hb
  obtain ⟨h1, h2⟩ := roundHalfEven_near (scaledQuotient a b e).1 (scaledQuotient a b e).2 hd
  generalize (scaledQuotient a b e).1 = n at *
  generalize (scaledQuotient a b e).2 = d at *
  generalize roundHalfEven n d = m at *
  have hdq : (0 : ℚ) < (d : ℚ) := by exact_mod_cast hd
  have h1q : 2 * ((m : ℚ) * d) ≤ 2 * n + d := by exact_mod_cast h1
  have h2q : 2 * (n : ℚ) ≤ 2 * ((m : ℚ) * d) + d := by exact_mod_cast h2
  have hpe : (0 : ℚ) < (2 : ℚ) ^ e := by positivity
  have hR : (a : ℚ) / (b : ℚ) = (n : ℚ) / (d : ℚ) * (2 : ℚ) ^ e := by
    rw [hratio, mul_assoc, ← zpow_add₀ (by norm_num : (2 : ℚ) ≠ 0)]
    simp
  have hnear : |(m : ℚ) - (n : ℚ) / (d : ℚ)| ≤ 1 / 2 := by
    rw [abs_le]
    constructor
    · rw [neg_le_sub_iff_le_add, div_le_iff₀ hdq]
      nlinarith
    · rw [sub_le_iff_le_add, ← sub_le_iff_le_add', le_div_iff₀ hdq]
      nlinarith
  have hbig2 : (2 : ℚ) ^ 23 ≤ (n : ℚ) / (d : ℚ) := by rw [hratio]; exact hbig
  have hfac : (m : ℚ) * (2 : ℚ) ^ e - (a : ℚ) / (b : ℚ)
      = ((m : ℚ) - (n : ℚ) / (d : ℚ)) * (2 : ℚ) ^ e := by rw [hR]; ring
  rw [hfac, abs_mul, abs_of_pos hpe, hR]
  have : |(m : ℚ) - (n : ℚ) / (d : ℚ)| ≤ (n : ℚ) / (d : ℚ) / 2 ^ 24 := by
    refine le_trans hnear ?_
    rw [le_div_iff₀ (by positivity)]
    linarith
  calc |(m : ℚ) - (n : ℚ) / (d : ℚ)| * (2 : ℚ) ^ e
      ≤ (n : ℚ) / (d : ℚ) / 2 ^ 24 * (2 : ℚ) ^ e := mul_le_mul_of_nonneg_right this hpe.le
    _ = (n : ℚ) / (d : ℚ) * (2 : ℚ) ^ e / 2 ^ 24 := by ring


/-- Before normalisation the scaled quotient exceeds `2 ^ 22`. -/
theorem scaled_gt (a b : Nat) (ha : a ≠ 0) (hb : b ≠ 0) :
    (2 : ℚ) ^ 22 < (a : ℚ) / (b : ℚ) * (2 : ℚ) ^ (-((ilog2 a : Int) - (ilog2 b : Int) - 23)) := by
  obtain ⟨ha1, _⟩ := ilog2_spec ha
  obtain ⟨_, hb2⟩ := ilog2_spec hb
  have hbq : (0 : ℚ) < (b : ℚ) := by exact_mod_cast Nat.pos_of_ne_zero hb
  have ha1q : (2 : ℚ) ^ ilog2 a ≤ (a : ℚ) := by exact_mod_cast ha1
  have hb2q : (b : ℚ) < (2 : ℚ) ^ (ilog2 b + 1) := by exact_mod_cast hb2
  have hexp : (2 : ℚ) ^ (-((ilog2 a : Int) - (ilog2 b : Int) - 23))
      = (2 : ℚ) ^ (ilog2 b + 23) / (2 : ℚ) ^ ilog2 a := by
    have : -((ilog2 a : Int) - (ilog2 b : Int) - 23) = ((ilog2 b + 23 : Nat) : Int) - (ilog2 a : Int) := by
      push_cast; ring
    rw [this, zpow_sub₀ (by norm_num : (2 : ℚ) ≠ 0), zpow_natCast, zpow_natCast]
  rw [hexp, div_mul_div_comm, lt_div_iff₀ (by positivity)]
  have hpa : (0 : ℚ) < (2 : ℚ) ^ ilog2 a := by positivity
  calc (2 : ℚ) ^ 22 * ((b : ℚ) * (2 : ℚ) ^ ilog2 a)
      < (2 : ℚ) ^ 22 * ((2 : ℚ) ^ (ilog2 b + 1) * (2 : ℚ) ^ ilog2 a) := by
        apply mul_lt_mul_of_pos_left _ (by positivity)
        exact mul_lt_mul_of_pos_right hb2q hpa
    _ = (2 : ℚ) ^ ilog2 a * (2 : ℚ) ^ (ilog2 b + 23) := by ring
    _ ≤ (a : ℚ) * (2 : ℚ) ^ (ilog2 b + 23) := mul_le_mul_of_nonneg_right ha1q (by positivity)

/-- Before normalisation the scaled quotient is below `2 ^ 24`. -/
theorem scaled_lt (a b : Nat) (ha : a ≠ 0) (hb : b ≠ 0) :
    (a : ℚ) / (b : ℚ) * (2 : ℚ) ^ (-((ilog2 a : Int) - (ilog2 b : Int) - 23)) < (2 : ℚ) ^ 24 := by
  obtain ⟨_, ha2⟩ := ilog2_spec ha
  obtain ⟨hb1, _⟩ := ilog2_spec hb
  have hbq : (0 : ℚ) < (b : ℚ) := by exact_mod_cast Nat.pos_of_ne_zero hb
  have ha2q : (a : ℚ) < (2 : ℚ) ^ (ilog2 a + 1) := by exact_mod_cast ha2
  have hb1q : (2 : ℚ) ^ ilog2 b ≤ (b : ℚ) := by exact_mod_cast hb1
  have hexp : (2 : ℚ) ^ (-((ilog2 a : Int) - (ilog2 b : Int) - 23))
      = (2 : ℚ) ^ (ilog2 b + 23) / (2 : ℚ) ^ ilog2 a := by
    have : -((ilog2 a : Int) - (ilog2 b : Int) - 23) = ((ilog2 b + 23 : Nat) : Int) - (ilog2 a : Int) := by
      push_cast; ring
    rw [this, zpow_sub₀ (by norm_num : (2 : ℚ) ≠ 0), zpow_natCast, zpow_natCast]
  rw [hexp, div_mul_div_comm, div_lt_iff₀ (by positivity)]
  have hpa : (0 : ℚ) < (2 : ℚ) ^ ilog2 a := by positivity
  calc (a : ℚ) * (2 : ℚ) ^ (ilog2 b + 23)
      < (2 : ℚ) ^ (ilog2 a + 1) * (2 : ℚ) ^ (ilog2 b + 23) :=
        mul_lt_mul_of_pos_right ha2q (by positivity)
    _ = (2 : ℚ) ^ 24 * ((2 : ℚ) ^ ilog2 b * (2 : ℚ) ^ ilog2 a) := by ring
    _ ≤ (2 : ℚ) ^ 24 * ((b : ℚ) * (2 : ℚ) ^ ilog2 a) := by
        apply mul_le_mul_of_nonneg_left _ (by positivity)
        exact mul_le_mul_of_nonneg_right hb1q hpa.le

/-- The significand of a scaled quotient below `2 ^ 24` is at most `2 ^ 24`. -/
theorem roundHalfEven_significand (a b : Nat) (e : Int) (hb : 0 < b)
    (hsmall : (a : ℚ) / (b : ℚ) * (2 : ℚ) ^ (-e) < (2 : ℚ) ^ 24) :
    roundHalfEven (scaledQuotient a b e).1 (scaledQuotient a b e).2 ≤ 2 ^ 24 := by
  obtain ⟨hd, hratio⟩ := scaledQuotient_ratio a b e hb
  apply roundHalfEven_le _ _ _ hd
  rw [← hratio] at hsmall
  have hdq : (0 : ℚ) < ((scaledQuotient a b e).2 : ℚ) := by exact_mod_cast hd
  rw [div_lt_iff₀ hdq] at hsmall
  have : ((scaledQuotient a b e).1 : ℚ) ≤ (((scaledQuotient a b e).2 * 2 ^ 24 : Nat) : ℚ) := by
    push_cast
    linarith
  exact_mod_cast this

theorem fdiv_rounds (a b : Nat) (hb : 0 < b) : (fdiv a b).RoundsQuotient a b := by
  unfold fdiv
  rw [if_neg (by omega)]
  split_ifs with ha
  · subst ha
    exact ⟨0, 0, rfl, by norm_num, by simp⟩
  · have hgt := scaled_gt a b ha (by omega)
    have hlt := scaled_lt a b ha (by omega)
    simp only
    generalize hE : (ilog2 a : Int) - (ilog2 b : Int) - 23 = e1 at hgt hlt ⊢
    obtain ⟨hd, hratio⟩ := scaledQuotient_ratio a b e1 hb
    have hdq : (0 : ℚ) < ((scaledQuotient a b e1).2 : ℚ) := by exact_mod_cast hd
    refine ⟨_, _, rfl, ?_, ?_⟩
    · apply roundHalfEven_significand a b _ hb
      split_ifs with hc
      · have h1 : -(e1 - 1) = -e1 + 1 := by ring
        rw [h1, zpow_add₀ (by norm_num : (2 : ℚ) ≠ 0), zpow_one]
        have hc2 : (scaledQuotient a b e1).1 < 2 ^ 23 * (scaledQuotient a b e1).2 :=
          (Nat.div_lt_iff_lt_mul hd).1 hc
        have hc3 : ((scaledQuotient a b e1).1 : ℚ) < 2 ^ 23 * ((scaledQuotient a b e1).2 : ℚ) := by
          exact_mod_cast hc2
        have hc4 : ((scaledQuotient a b e1).1 : ℚ) / ((scaledQuotient a b e1).2 : ℚ) < 2 ^ 23 := by
          rw [div_lt_iff₀ hdq]; exact hc3
        rw [hratio] at hc4
        linarith
      · exact hlt
    · apply roundHalfEven_rel a b _ hb
      split_ifs with hc
      · have h1 : -(e1 - 1) = -e1 + 1 := by ring
        rw [h1, zpow_add₀ (by norm_num : (2 : ℚ) ≠ 0), zpow_one]
        linarith
      · rw [← hratio]
        have hge : 2 ^ 23 ≤ (scaledQuotient a b e1).1 / (scaledQuotient a b e1).2 := by omega
        have hgeq : (2 : ℚ) ^ 23
            ≤ (((scaledQuotient a b e1).1 / (scaledQuotient a b e1).2 : Nat) : ℚ) := by
          exact_mod_cast hge
        exact le_trans hgeq Nat.cast_div_le

theorem fdiv_by_zero (a : Nat) : fdiv a 0 = if a = 0 then F32.nan else F32.inf := by
  unfold fdiv
  rw [if_pos rfl]


theorem storeGlyph_eq (tw th : Nat) (st : GlyphState) (r : GlyphRecord)
    (h : r.id < st.glyphes.length) : storeGlyph tw th st r = some (applyRecord tw th st r) := by
  have hmax : (if (mkGlyph tw th r).height > st.maxHeight then (mkGlyph tw th r).height
      else st.maxHeight) = max st.maxHeight (wrapI16 r.h) := by
    simp only [mkGlyph]
    split_ifs with hc
    · exact (max_eq_right (le_of_lt hc)).symm
    · exact (max_eq_left (not_lt.1 hc)).symm
  unfold storeGlyph applyRecord
  rw [if_pos h, hmax]

theorem applyRecords_length (tw th : Nat) (recs : List GlyphRecord) (st : GlyphState) :
    (recs.foldl (applyRecord tw th) st).glyphes.length = st.glyphes.length := by
  induction recs generalizing st with
  | nil => rfl
  | cons r rs ih => rw [List.foldl_cons, ih]; simp [applyRecord]

theorem glyphLoop_eq (buffer : Buffer) (tw th n iter : Nat) (st : GlyphState)
    (recs : List GlyphRecord) (hrecs : readRecords buffer iter n = some recs)
    (hids : ∀ r ∈ recs, r.id < st.glyphes.length) :
    glyphLoop buffer tw th n iter st = some (recs.foldl (applyRecord tw th) st) := by
  induction n generalizing iter st recs with
  | zero =>
    simp only [readRecords, Option.some.injEq] at hrecs
    subst hrecs
    rfl
  | succ n ih =>
    unfold readRecords at hrecs
    cases hr : readRecord buffer iter with
    | none => simp [hr] at hrecs
    | some r =>
      cases hrs : readRecords buffer (iter + 22) n with
      | none => simp [hr, hrs] at hrecs
      | some rs =>
        simp only [hr, hrs, Option.some.injEq] at hrecs
        subst hrecs
        unfold glyphLoop
        simp only [hr, storeGlyph_eq tw th st r (hids r (List.mem_cons_self _ _))]
        rw [ih _ _ rs hrs]
        · rfl
        · intro r1 hr1
          have := hids r1 (List.mem_cons_of_mem _ hr1)
          simpa [applyRecord] using this

theorem applyRecords_entry (tw th : Nat) (recs : List GlyphRecord) (st : GlyphState) (c : Nat)
    (hc : c < st.glyphes.length) :
    (recs.foldl (applyRecord tw th) st).glyphes[c]?
      = match lastRecord recs c with
        | some r => some (mkGlyph tw th r)
        | none => st.glyphes[c]? := by
  induction recs using List.reverseRecOn with
  | nil => simp [lastRecord]
  | append_singleton rs r ih =>
    simp only [List.foldl_append, List.foldl_cons, List.foldl_nil, lastRecord,
      List.reverse_append, List.reverse_cons, List.reverse_nil, List.nil_append,
      List.singleton_append, List.find?_cons]
    by_cases hrc : r.id = c
    · subst hrc
      simp only [decide_True, applyRecord]
      rw [List.getElem?_set_self]
      rw [applyRecords_length]
      exact hc
    · simp only [hrc, decide_False, applyRecord]
      rw [List.getElem?_set_ne hrc]
      exact ih

theorem applyRecords_maxHeight (tw th : Nat) (recs : List GlyphRecord) (st : GlyphState) :
    (recs.foldl (applyRecord tw th) st).maxHeight
      = (recs.map (fun r => wrapI16 r.h)).foldl max st.maxHeight := by
  induction recs generalizing st with
  | nil => rfl
  | cons r rs ih =>
    rw [List.foldl_cons, ih]
    simp only [List.map_cons, List.foldl_cons, applyRecord]

theorem lastRecord_perm {l1 l2 : List GlyphRecord} (hp : l1.Perm l2)
    (hnd : (l1.map GlyphRecord.id).Nodup) (c : Nat) : lastRecord l1 c = lastRecord l2 c := by
  have key : ∀ (a b : List GlyphRecord), a.Perm b → (a.map GlyphRecord.id).Nodup →
      ∀ r, lastRecord a c = some r → lastRecord b c = some r := by
    intro a b hab hna r hr
    have hmem : r ∈ a := List.mem_reverse.1 (List.mem_of_find?_eq_some hr)
    have hid : r.id = c := by simpa using List.find?_some hr
    cases hb : lastRecord b c with
    | none =>
      have := List.find?_eq_none.1 hb r (List.mem_reverse.2 (hab.mem_iff.1 hmem))
      simp [hid] at this
    | some r2 =>
      have hmem2 : r2 ∈ a := hab.mem_iff.2 (List.mem_reverse.1 (List.mem_of_find?_eq_some hb))
      have hid2 : r2.id = c := by simpa using List.find?_some hb
      rw [List.inj_on_of_nodup_map hna hmem2 hmem (hid2.trans hid.symm)]
  have hnd2 : (l2.map GlyphRecord.id).Nodup := (hp.map _).nodup_iff.1 hnd
  cases h1 : lastRecord l1 c with
  | some r => exact (key l1 l2 hp hnd r h1).symm
  | none =>
    cases h2 : lastRecord l2 c with
    | none => rfl
    | some r2 =>
      have := key l2 l1 hp.symm hnd2 r2 h2
      rw [h1] at this
      cases this

theorem foldl_max_perm {l1 l2 : List Int} (hp : l1.Perm l2) (m : Int) :
    l1.foldl max m = l2.foldl max m := by
  apply hp.foldl_eq'
  intro x _ y _ z
  simp only [max_assoc, max_comm x y]


theorem zeroTable_getElem? (M c : Nat) (hc : c ≤ M) : (zeroTable M)[c]? = some Glyph.zero := by
  unfold zeroTable
  rw [List.getElem?_eq_getElem (by simp; omega)]
  simp

theorem zeroTable_length (M : Nat) : (zeroTable M).length = M + 1 := by
  simp [zeroTable]

/-- With the header fields read and every record inside the table, lines 216-249 leave
the table and `max_height` obtained by applying the records in file order. -/
theorem loadGlyphs_eq (buffer : Buffer) (N M tw th : Nat) (recs : List GlyphRecord)
    (hN : rd16 buffer 0 = some N) (hM : rd16 buffer 0x02 = some M)
    (htw : rd16 buffer 0x04 = some tw) (hth : rd16 buffer 0x06 = some th)
    (hrecs : readRecords buffer 0x08 N = some recs) (hids : ∀ r ∈ recs, r.id ≤ M) :
    glyphLoop buffer tw th N 0x08 ⟨zeroTable M, 0⟩
        = some (recs.foldl (applyRecord tw th) ⟨zeroTable M, 0⟩) ∧
      loadGlyphs buffer = some (recs.foldl (applyRecord tw th) ⟨zeroTable M, 0⟩) := by
  have h := glyphLoop_eq buffer tw th N 0x08 ⟨zeroTable M, 0⟩ recs hrecs (by
    intro r hr
    have := hids r hr
    simp only [zeroTable_length]
    omega)
  refine ⟨h, ?_⟩
  unfold loadGlyphs
  simp only [hN, hM, htw, hth]
  exact h

theorem loaded_entry (tw th M : Nat) (recs : List GlyphRecord) (c : Nat) (hc : c ≤ M) :
    (recs.foldl (applyRecord tw th) ⟨zeroTable M, 0⟩).glyphes[c]?
      = match lastRecord recs c with
        | some r => some (mkGlyph tw th r)
        | none => some Glyph.zero := by
  rw [applyRecords_entry tw th recs ⟨zeroTable M, 0⟩ c (by simp only [zeroTable_length]; omega)]
  cases lastRecord recs c with
  | some r => rfl
  | none => exact zeroTable_getElem? M c hc

theorem lastRecord_some {recs : List GlyphRecord} {c : Nat} {r : GlyphRecord}
    (h : lastRecord recs c = some r) : r ∈ recs ∧ r.id = c :=
  ⟨List.mem_reverse.1 (List.mem_of_find?_eq_some h), by simpa using List.find?_some h⟩

theorem lastRecord_none {recs : List GlyphRecord} {c : Nat} (h : ∀ r ∈ recs, r.id ≠ c) :
    lastRecord recs c = none := by
  unfold lastRecord
  rw [List.find?_eq_none]
  intro r hr
  simpa using h r (List.mem_reverse.1 hr)

theorem lastRecord_exists {recs : List GlyphRecord} {r : GlyphRecord} (h : r ∈ recs) :
    ∃ r2, lastRecord recs r.id = some r2 := by
  cases hl : lastRecord recs r.id with
  | some r2 => exact ⟨r2, rfl⟩
  | none =>
    have := List.find?_eq_none.1 hl r (List.mem_reverse.2 h)
    simp at this

/-- What a returned font holds, in terms of the state the glyph loop left. -/
theorem ldfont_ret (env : Env) (sz : Sizes) (buffer : Buffer) (height : Byte)
    (N M tw th : Nat) (st : GlyphState)
    (hN : rd16 buffer 0 = some N) (hM : rd16 buffer 0x02 = some M)
    (htw : rd16 buffer 0x04 = some tw) (hth : rd16 buffer 0x06 = some th)
    (hloop : glyphLoop buffer tw th N 0x08 ⟨zeroTable M, 0⟩ = some st)
    (ev : List Event) (font : Font)
    (h : ldfont env sz (some buffer) height = ⟨ev, .ret font⟩) :
    font.glyphes = st.glyphes ∧ font.glyphCount = M + 1 ∧
      font.scale = fdiv height.val st.maxHeight.toNat ∧ font.height = height.val ∧
      font.texWidth = tw ∧ font.texHeight = th ∧ font.fallback = 63 := by
  unfold ldfont ldfile at h
  simp only at h
  split at h
  · rename_i ev1 buf hfile
    split at hfile
    · simp at hfile
    · simp only [Run.mk.injEq, Outcome.ret.injEq] at hfile
      obtain ⟨_, rfl⟩ := hfile
      simp only [Run.mk.injEq] at h
      obtain ⟨_, hout⟩ := h
      unfold ldfontParse at hout
      simp only [hN, hM, htw, hth, hloop] at hout
      split at hout
      · simp at hout
      · simp only at hout
        unfold ldfontFinish at hout
        split at hout
        · simp at hout
        · split at hout
          · simp only [Outcome.ret.injEq] at hout
            subst hout
            simp
          · simp at hout
          · simp at hout
  · simp at h
  · simp at h


/-- With every block granted and a well-formed image behind the records, `ldfont` returns
a font built from the state the glyph loop left. -/
theorem ldfont_returns (env : Env) (sz : Sizes) (buffer : Buffer) (height : Byte)
    (N M tw th : Nat) (st : GlyphState)
    (hN : rd16 buffer 0 = some N) (hM : rd16 buffer 0x02 = some M)
    (htw : rd16 buffer 0x04 = some tw) (hth : rd16 buffer 0x06 = some th)
    (hloop : glyphLoop buffer tw th N 0x08 ⟨zeroTable M, 0⟩ = some st)
    (W H ioff : Nat) (himg : WellFormedImage (buffer.advance (0x08 + 22 * N)) W H ioff)
    (hmem : ∀ n, env.allocOk n = true) :
    ∃ ev : List Event, ldfont env sz (some buffer) height
      = ⟨ev, .ret ⟨height.val, fdiv height.val st.maxHeight.toNat, env.texName, tw, th, 63,
          st.glyphes, M + 1⟩⟩ := by
  obtain ⟨hB, hMg, hWf, hHf, hoff, hW, hH, hb, hsize⟩ := himg
  obtain ⟨P, hdec, _, _⟩ := decodeLoop_spec _ ioff W H hW hH hb hsize
  have hbmp := ldbmpDecode_ok env _ W H ioff P hB hMg hWf hHf hoff hW hH hb (hmem _) hdec
  refine ⟨[.calloc buffer.size 1] ++ (.calloc (sz.glyph * (M + 1)) 1 ::
    (.calloc sz.font 1 :: (.calloc (W * H * 4) 1 :: uploadEvents env W H P) ++ [.free])), ?_⟩
  unfold ldfont ldfile
  simp only [hmem, Bool.true_eq_false, if_false]
  unfold ldfontParse
  simp only [hN, hM, htw, hth, hloop, hmem, Bool.true_eq_false, if_false]
  unfold ldfontFinish
  simp only [hmem, Bool.true_eq_false, if_false, hbmp]


theorem maxSignedHeight_spec (recs : List GlyphRecord) :
    0 ≤ maxSignedHeight recs ∧ (∀ r ∈ recs, wrapI16 r.h ≤ maxSignedHeight recs) ∧
      ((∃ r ∈ recs, 0 < wrapI16 r.h) → ∃ r ∈ recs, wrapI16 r.h = maxSignedHeight recs) := by
  have key : ∀ (l : List GlyphRecord) (m : Int),
      m ≤ (l.map (fun r => wrapI16 r.h)).foldl max m ∧
      (∀ r ∈ l, wrapI16 r.h ≤ (l.map (fun r => wrapI16 r.h)).foldl max m) ∧
      ((l.map (fun r => wrapI16 r.h)).foldl max m = m ∨
        ∃ r ∈ l, wrapI16 r.h = (l.map (fun r => wrapI16 r.h)).foldl max m) := by
    intro l
    induction l with
    | nil => intro m; simp
    | cons r rs ih =>
      intro m
      obtain ⟨h1, h2, h3⟩ := ih (max m (wrapI16 r.h))
      simp only [List.map_cons, List.foldl_cons]
      refine ⟨le_trans (le_max_left _ _) h1, ?_, ?_⟩
      · intro r1 hr1
        rcases List.mem_cons.1 hr1 with rfl | hin
        · exact le_trans (le_max_right _ _) h1
        · exact h2 r1 hin
      · rcases h3 with h3 | ⟨r1, hr1, he⟩
        · rcases max_choice m (wrapI16 r.h) with hm | hm
          · left; rw [h3, hm]
          · right; exact ⟨r, List.mem_cons_self _ _, by rw [h3, hm]⟩
        · right; exact ⟨r1, List.mem_cons_of_mem _ hr1, he⟩
  obtain ⟨h1, h2, h3⟩ := key recs 0
  refine ⟨h1, h2, ?_⟩
  rintro ⟨r, hr, hpos⟩
  rcases h3 with h3 | h3
  · have := h2 r hr
    unfold maxSignedHeight
    omega
  · exact h3

/-- The last record carrying `c` is the one no later record shares its code point with. -/
theorem lastRecord_eq_some_iff (recs : List GlyphRecord) (c : Nat) (r : GlyphRecord) :
    lastRecord recs c = some r ↔
      r.id = c ∧ ∃ pre post, recs = pre ++ r :: post ∧ ∀ r2 ∈ post, r2.id ≠ c := by
  unfold lastRecord
  rw [List.find?_eq_some]
  constructor
  · rintro ⟨hid, as, bs, happ, hno⟩
    refine ⟨by simpa using hid, bs.reverse, as.reverse, ?_, ?_⟩
    · have := List.reverse_eq_iff.1 happ
      rw [this]; simp
    · intro r2 hr2
      simpa using hno r2 (List.mem_reverse.1 hr2)
  · rintro ⟨hid, pre, post, happ, hno⟩
    refine ⟨by simpa using hid, post.reverse, pre.reverse, ?_, ?_⟩
    · rw [happ]; simp
    · intro r2 hr2
      simpa using hno r2 (List.mem_reverse.1 hr2)

theorem rd16_lt {b : Buffer} {off v : Nat} (h : rd16 b off = some v) : v < 2 ^ 16 := by
  unfold rd16 at h
  split at h
  · rename_i b0 b1 _ _
    simp only [Option.some.injEq] at h
    have h0 := b0.isLt
    have h1 := b1.isLt
    omega
  · simp at h

theorem readRecord_lt {buffer : Buffer} {iter : Nat} {r : GlyphRecord}
    (h : readRecord buffer iter = some r) : r.w < 2 ^ 16 ∧ r.h < 2 ^ 16 := by
  unfold readRecord at h
  split at h
  · rename_i id x y w hh xoff yoff xadv _ _ _ hw hhh _ _ _
    simp only [Option.some.injEq] at h
    subst h
    exact ⟨rd16_lt hw, rd16_lt hhh⟩
  · simp at h

theorem readRecords_lt (buffer : Buffer) (n iter : Nat) (recs : List GlyphRecord)
    (h : readRecords buffer iter n = some recs) : ∀ r ∈ recs, r.w < 2 ^ 16 ∧ r.h < 2 ^ 16 := by
  induction n generalizing iter recs with
  | zero =>
    simp only [readRecords, Option.some.injEq] at h
    subst h
    simp
  | succ n ih =>
    unfold readRecords at h
    split at h
    · rename_i r rs hr hrs
      simp only [Option.some.injEq] at h
      subst h
      intro r2 hr2
      rcases List.mem_cons.1 hr2 with rfl | hmem
      · exact readRecord_lt hr
      · exact ih _ _ hrs r2 hmem
    · simp at h

theorem wrapI16_eq {n : Nat} (h : n < 2 ^ 16) :
    wrapI16 (n : Int) = if n < 2 ^ 15 then (n : Int) else (n : Int) - 2 ^ 16 := by
  unfold wrapI16
  split_ifs <;> omega

/-- Claim C6, amended: for an atlas buffer with glyph count N and maximum index M whose N
records (22 bytes each from byte 8) all carry a code point at most M, the glyph table
`ldfont` builds has exactly M + 1 entries; every code point some record carries has a last
record carrying it, and the entry at that index holds that record's code point, its width
and height fields read as signed 16-bit values (the field itself when below 2^15, the
field minus 65536 otherwise), its x-offset, y-offset and x-advance, and as UV corners the
binary32 quotients of x, y, x + width, y + height (the unsigned fields) by the atlas width
and height: numbers of at most 24 significant bits within relative error 2^-24 of the
exact quotients when the divisor is positive, and infinity (not-a-number for 0/0) when it
is zero; every entry whose
index no record carries is all zero; with distinct code points any reordering of the
records gives the same table; a font that `ldfont` returns holds this table and the count
M + 1; and `ldfont` does return one when every block is granted and a well-formed image
follows the records. -/
theorem ldfont_glyph_table (buffer : Buffer) (N M tw th : Nat) (recs : List GlyphRecord)
    (hN : rd16 buffer 0 = some N) (hM : rd16 buffer 0x02 = some M)
    (htw : rd16 buffer 0x04 = some tw) (hth : rd16 buffer 0x06 = some th)
    (hrecs : readRecords buffer 0x08 N = some recs) (hids : ∀ r ∈ recs, r.id ≤ M) :
    ∃ st : GlyphState,
      loadGlyphs buffer = some st ∧
      st.glyphes.length = M + 1 ∧
      (∀ r ∈ recs, ∃ (pre : List GlyphRecord) (last : GlyphRecord) (post : List GlyphRecord),
        recs = pre ++ last :: post ∧ last.id = r.id ∧ ∀ r2 ∈ post, r2.id ≠ r.id) ∧
      (∀ (pre : List GlyphRecord) (r : GlyphRecord) (post : List GlyphRecord),
        recs = pre ++ r :: post → (∀ r2 ∈ post, r2.id ≠ r.id) →
        ∃ g : Glyph, st.glyphes[r.id]? = some g ∧
          g.code = r.id ∧
          g.width = (if r.w < 2 ^ 15 then (r.w : Int) else (r.w : Int) - 2 ^ 16) ∧
          g.height = (if r.h < 2 ^ 15 then (r.h : Int) else (r.h : Int) - 2 ^ 16) ∧
          g.xoff = r.xoff ∧ g.yoff = r.yoff ∧ g.xadvance = r.xadv ∧
          g.u0 = fdiv r.x tw ∧ g.v0 = fdiv r.y th ∧
          g.u1 = fdiv (r.x + r.w) tw ∧ g.v1 = fdiv (r.y + r.h) th ∧
          (0 < tw → g.u0.RoundsQuotient r.x tw ∧ g.u1.RoundsQuotient (r.x + r.w) tw) ∧
          (0 < th → g.v0.RoundsQuotient r.y th ∧ g.v1.RoundsQuotient (r.y + r.h) th) ∧
          (tw = 0 → g.u0 = (if r.x = 0 then F32.nan else F32.inf) ∧
            g.u1 = (if r.x + r.w = 0 then F32.nan else F32.inf)) ∧
          (th = 0 → g.v0 = (if r.y = 0 then F32.nan else F32.inf) ∧
            g.v1 = (if r.y + r.h = 0 then F32.nan else F32.inf))) ∧
      (∀ c, c ≤ M → (∀ r ∈ recs, r.id ≠ c) → st.glyphes[c]? = some Glyph.zero) ∧
      (∀ (buffer2 : Buffer) (recs2 : List GlyphRecord),
        rd16 buffer2 0 = some N → rd16 buffer2 0x02 = some M →
        rd16 buffer2 0x04 = some tw → rd16 buffer2 0x06 = some th →
        readRecords buffer2 0x08 N = some recs2 → recs2.Perm recs →
        (recs.map GlyphRecord.id).Nodup → loadGlyphs buffer2 = some st) ∧
      (∀ (env : Env) (sz : Sizes) (height : Byte) (ev : List Event) (font : Font),
        ldfont env sz (some buffer) height = ⟨ev, .ret font⟩ →
        font.glyphes = st.glyphes ∧ font.glyphCount = M + 1) ∧
      (∀ (env : Env) (sz : Sizes) (height : Byte) (W H ioff : Nat),
        WellFormedImage (buffer.advance (0x08 + 22 * N)) W H ioff →
        (∀ n, env.allocOk n = true) →
        ∃ ev font, ldfont env sz (some buffer) height = ⟨ev, .ret font⟩ ∧
          font.glyphes = st.glyphes ∧ font.glyphCount = M + 1) := by
  obtain ⟨hloop, hload⟩ := loadGlyphs_eq buffer N M tw th recs hN hM htw hth hrecs hids
  have hlt := readRecords_lt buffer N 0x08 recs hrecs
  refine ⟨_, hload, ?_, ?_, ?_, ?_, ?_, ?_, ?_⟩
  · rw [applyRecords_length]; exact zeroTable_length M
  · intro r hr
    obtain ⟨r2, h2⟩ := lastRecord_exists hr
    obtain ⟨hid, pre, post, happ, hno⟩ := (lastRecord_eq_some_iff recs r.id r2).1 h2
    exact ⟨pre, r2, post, happ, hid, hno⟩
  · intro pre r post happ hno
    have hl : lastRecord recs r.id = some r :=
      (lastRecord_eq_some_iff recs r.id r).2 ⟨rfl, pre, post, happ, hno⟩
    have hmem : r ∈ recs := by rw [happ]; simp
    obtain ⟨hw, hh⟩ := hlt r hmem
    refine ⟨mkGlyph tw th r, ?_, rfl, wrapI16_eq hw, wrapI16_eq hh, rfl, rfl, rfl, rfl, rfl,
      rfl, rfl, ?_, ?_, ?_, ?_⟩
    · rw [loaded_entry tw th M recs r.id (hids r hmem), hl]
    · intro h; exact ⟨fdiv_rounds _ _ h, fdiv_rounds _ _ h⟩
    · intro h; exact ⟨fdiv_rounds _ _ h, fdiv_rounds _ _ h⟩
    · intro h; subst h; exact ⟨fdiv_by_zero _, fdiv_by_zero _⟩
    · intro h; subst h; exact ⟨fdiv_by_zero _, fdiv_by_zero _⟩
  · intro c hc hno
    rw [loaded_entry tw th M recs c hc, lastRecord_none hno]
  · intro buffer2 recs2 hN2 hM2 htw2 hth2 hrecs2 hperm hnd
    have hids2 : ∀ r ∈ recs2, r.id ≤ M := fun r hr => hids r (hperm.mem_iff.1 hr)
    rw [(loadGlyphs_eq buffer2 N M tw th recs2 hN2 hM2 htw2 hth2 hrecs2 hids2).2]
    have hnd2 : (recs2.map GlyphRecord.id).Nodup := (hperm.map _).nodup_iff.2 hnd
    have hg : (recs2.foldl (applyRecord tw th) ⟨zeroTable M, 0⟩).glyphes
        = (recs.foldl (applyRecord tw th) ⟨zeroTable M, 0⟩).glyphes := by
      apply List.ext_getElem?
      intro c
      by_cases hc : c ≤ M
      · rw [loaded_entry tw th M recs2 c hc, loaded_entry tw th M recs c hc,
          lastRecord_perm hperm hnd2 c]
      · rw [List.getElem?_eq_none (by rw [applyRecords_length, zeroTable_length]; omega),
          List.getElem?_eq_none (by rw [applyRecords_length, zeroTable_length]; omega)]
    have hm : (recs2.foldl (applyRecord tw th) ⟨zeroTable M, 0⟩).maxHeight
        = (recs.foldl (applyRecord tw th) ⟨zeroTable M, 0⟩).maxHeight := by
      rw [applyRecords_maxHeight, applyRecords_maxHeight]
      exact foldl_max_perm (hperm.map _) 0
    cases h2 : recs2.foldl (applyRecord tw th) ⟨zeroTable M, 0⟩ with
    | mk g2 m2 =>
      cases h1 : recs.foldl (applyRecord tw th) ⟨zeroTable M, 0⟩ with
      | mk g1 m1 =>
        rw [h2, h1] at hg hm
        simp only at hg hm
        rw [hg, hm]
  · intro env sz height ev font hret
    obtain ⟨h1, h2, _⟩ := ldfont_ret env sz buffer height N M tw th _ hN hM htw hth hloop ev font hret
    exact ⟨h1, h2⟩
  · intro env sz height W H ioff himg hmem
    obtain ⟨ev, hret⟩ := ldfont_returns env sz buffer height N M tw th _ hN hM htw hth hloop
      W H ioff himg hmem
    exact ⟨ev, _, hret, rfl, rfl⟩

/-- Claim C7, amended with the premises that the atlas width and height are positive and
every record has x + width at most the atlas width and y + height at most the atlas
height (and all code points at most the maximum index): all four UV coordinates of every
entry of the glyph table lie within [0,1]. -/
theorem ldfont_uv_in_unit (buffer : Buffer) (N M tw th : Nat) (recs : List GlyphRecord)
    (hN : rd16 buffer 0 = some N) (hM : rd16 buffer 0x02 = some M)
    (htw : rd16 buffer 0x04 = some tw) (hth : rd16 buffer 0x06 = some th)
    (hrecs : readRecords buffer 0x08 N = some recs) (hids : ∀ r ∈ recs, r.id ≤ M)
    (hw0 : 0 < tw) (hh0 : 0 < th)
    (hfit : ∀ r ∈ recs, r.x + r.w ≤ tw ∧ r.y + r.h ≤ th) :
    ∃ st : GlyphState,
      loadGlyphs buffer = some st ∧
      ∀ g ∈ st.glyphes, g.u0.InUnit ∧ g.v0.InUnit ∧ g.u1.InUnit ∧ g.v1.InUnit := by
  obtain ⟨_, hload⟩ := loadGlyphs_eq buffer N M tw th recs hN hM htw hth hrecs hids
  refine ⟨_, hload, ?_⟩
  intro g hg
  obtain ⟨c, hc, hgc⟩ := List.getElem_of_mem hg
  have hcM : c ≤ M := by
    rw [applyRecords_length, zeroTable_length] at hc
    omega
  have hent := loaded_entry tw th M recs c hcM
  rw [List.getElem?_eq_getElem hc, hgc] at hent
  cases hl : lastRecord recs c with
  | none =>
    rw [hl] at hent
    simp only [Option.some.injEq] at hent
    subst hent
    exact ⟨F32.zero_inUnit, F32.zero_inUnit, F32.zero_inUnit, F32.zero_inUnit⟩
  | some r =>
    rw [hl] at hent
    simp only [Option.some.injEq] at hent
    subst hent
    obtain ⟨hx, hy⟩ := hfit r (lastRecord_some hl).1
    exact ⟨fdiv_inUnit _ _ hw0 (by omega), fdiv_inUnit _ _ hh0 (by omega),
      fdiv_inUnit _ _ hw0 hx, fdiv_inUnit _ _ hh0 hy⟩

/-- Claim C8, amended: for an atlas buffer whose records all carry a code point at most the
maximum index and of which at least one has a positive height when read as a `short`,
`max_height` ends as the maximum of the heights read as `short`, and the scale of a font
`ldfont` returns is the binary32 quotient of the requested height by that maximum
(`ldfont` does return one when every block is granted and a well-formed image follows the
records); for 16 and 20 this is 13421773 * 2^-24, the binary32 number nearest 0.8. -/
theorem ldfont_scale (buffer : Buffer) (N M tw th : Nat) (recs : List GlyphRecord)
    (hN : rd16 buffer 0 = some N) (hM : rd16 buffer 0x02 = some M)
    (htw : rd16 buffer 0x04 = some tw) (hth : rd16 buffer 0x06 = some th)
    (hrecs : readRecords buffer 0x08 N = some recs) (hids : ∀ r ∈ recs, r.id ≤ M)
    (hpos : ∃ r ∈ recs, 0 < wrapI16 r.h) :
    (∃ st : GlyphState, loadGlyphs buffer = some st ∧ st.maxHeight = maxSignedHeight recs) ∧
    (∀ r ∈ recs, wrapI16 r.h ≤ maxSignedHeight recs) ∧
    (∃ r ∈ recs, wrapI16 r.h = maxSignedHeight recs) ∧
    (∀ (env : Env) (sz : Sizes) (height : Byte) (ev : List Event) (font : Font),
      ldfont env sz (some buffer) height = ⟨ev, .ret font⟩ →
      font.scale = fdiv height.val (maxSignedHeight recs).toNat) ∧
    (∀ (env : Env) (sz : Sizes) (height : Byte) (W H ioff : Nat),
      WellFormedImage (buffer.advance (0x08 + 22 * N)) W H ioff →
      (∀ n, env.allocOk n = true) →
      ∃ ev font, ldfont env sz (some buffer) height = ⟨ev, .ret font⟩ ∧
        font.scale = fdiv height.val (maxSignedHeight recs).toNat) ∧
    fdiv 16 20 = .fin 13421773 (-24) := by
  obtain ⟨hloop, hload⟩ := loadGlyphs_eq buffer N M tw th recs hN hM htw hth hrecs hids
  obtain ⟨_, hle, hex⟩ := maxSignedHeight_spec recs
  have hmax : (recs.foldl (applyRecord tw th) ⟨zeroTable M, 0⟩).maxHeight
      = maxSignedHeight recs := applyRecords_maxHeight tw th recs _
  refine ⟨⟨_, hload, hmax⟩, hle, hex hpos, ?_, ?_, by decide⟩
  · intro env sz height ev font hret
    obtain ⟨_, _, h3, _⟩ := ldfont_ret env sz buffer height N M tw th _ hN hM htw hth hloop ev
      font hret
    rw [h3, hmax]
  · intro env sz height W H ioff himg hmem
    obtain ⟨ev, hret⟩ := ldfont_returns env sz buffer height N M tw th _ hN hM htw hth hloop
      W H ioff himg hmem
    exact ⟨ev, _, hret, by rw [hmax]⟩


/-- Claim C6 as stated fails for an atlas whose only record has height field 40000 (code
point 0, maximum index 0, so every premise holds): entry 0 of the table holds the height
-25536, the field's 16 bits taken as a `short`, not 40000, while its lower UV corner is
computed from the field itself, (0 + 40000) / 64 = 625; the font `ldfont` returns holds
this table. -/
theorem ldfont_entry_height_wraps :
    rd16 tallAtlas 0 = some 1 ∧ rd16 tallAtlas 0x02 = some 0 ∧
    readRecords tallAtlas 0x08 1 = some [⟨0, 0, 0, 10, 40000, 0, 0, 1065353216⟩] ∧
    loadGlyphs tallAtlas
      = some ⟨[⟨0, 10, -25536, 0, 0, 1065353216, .fin 0 0, .fin 0 0, .fin 10485760 (-26),
          .fin 10240000 (-14)⟩], 0⟩ ∧
    (-25536 : Int) ≠ 40000 ∧
    ldfont sampleEnv sampleSizes (some tallAtlas) 16
      = ⟨sampleFontEvents 72 1,
          .ret ⟨16, .inf, 7, 64, 64, 63,
            [⟨0, 10, -25536, 0, 0, 1065353216, .fin 0 0, .fin 0 0, .fin 10485760 (-26),
              .fin 10240000 (-14)⟩], 1⟩⟩ ∧
    (F32.fin 10240000 (-14)).toRat = some 625 := by
  refine ⟨by decide, by decide, by decide, by decide, by decide, by decide, ?_⟩
  simp only [F32.toRat, Option.some.injEq]
  norm_num [zpow_neg]

/-- Claim C6, amended, at the sample atlas: 71 entries; the entry of `A`, whose record
(x = 0, y = 0, width 10, height 20) is followed by no other record for `A`, holds code
point 65, width 10, height 20 and the lower UV corner (10/64, 20/64); entry 64, which no
record carries, is all zero; and the font `ldfont` returns holds this table. -/
theorem ldfont_glyph_table_witness :
    ∃ st : GlyphState,
      loadGlyphs sampleAtlas = some st ∧ st.glyphes.length = 70 + 1 ∧
      (∃ g : Glyph, st.glyphes[65]? = some g ∧ g.code = 65 ∧ g.width = 10 ∧ g.height = 20 ∧
        g.u1 = .fin 10485760 (-26) ∧ g.v1 = .fin 10485760 (-25) ∧
        g.u1.RoundsQuotient 10 64 ∧ g.v1.RoundsQuotient 20 64) ∧
      st.glyphes[64]? = some Glyph.zero ∧
      sampleFont.glyphes = st.glyphes := by
  obtain ⟨st, h1, h2, _, h4, h5, _, h7, _⟩ := ldfont_glyph_table sampleAtlas 2 70 64 64
    sampleRecords
    (by decide) (by decide) (by decide) (by decide) (by decide) (by decide)
  obtain ⟨g, hg, hc, hw, hh, _, _, _, _, _, hu1, hv1, hru, hrv, _, _⟩ :=
    h4 [] ⟨65, 0, 0, 10, 20, 0, 0, 1065353216⟩ [⟨63, 10, 0, 8, 12, 0, 0, 1065353216⟩]
      (by decide) (by decide)
  exact ⟨st, h1, h2,
    ⟨g, hg, hc, hw.trans (by decide), hh.trans (by decide), hu1.trans (by decide),
      hv1.trans (by decide), (hru (by decide)).2, (hrv (by decide)).2⟩,
    h5 64 (by decide) (by decide),
    (h7 sampleEnv sampleSizes 16 (sampleFontEvents 94 71) sampleFont (by decide)).1⟩

/-- Claim C7 as stated fails for an atlas of width 5 with a glyph at x = 10: the entry's
first U coordinate is the float 10/5 = 2, outside [0,1]; `ldfont` checks no record against
the atlas size. -/
theorem ldfont_uv_outside_unit :
    loadGlyphs outsideAtlas = some ⟨[mkGlyph 5 5 ⟨0, 10, 0, 0, 0, 0, 0, 1065353216⟩], 0⟩ ∧
    (mkGlyph 5 5 ⟨0, 10, 0, 0, 0, 0, 0, 1065353216⟩).u0 = .fin 8388608 (-22) ∧
    (F32.fin 8388608 (-22)).toRat = some 2 ∧
    ¬ (F32.fin 8388608 (-22)).InUnit := by
  have hval : (F32.fin 8388608 (-22)).toRat = some 2 := by
    simp only [F32.toRat, Option.some.injEq]
    norm_num [zpow_neg]
  refine ⟨by decide, by decide, hval, ?_⟩
  rintro ⟨q, hq, _, hle⟩
  rw [hval] at hq
  simp only [Option.some.injEq] at hq
  rw [← hq] at hle
  norm_num at hle

/-- Claim C7, amended, at the sample atlas. -/
theorem ldfont_uv_in_unit_witness :
    ∃ st : GlyphState,
      loadGlyphs sampleAtlas = some st ∧
      ∀ g ∈ st.glyphes, g.u0.InUnit ∧ g.v0.InUnit ∧ g.u1.InUnit ∧ g.v1.InUnit :=
  ldfont_uv_in_unit sampleAtlas 2 70 64 64 sampleRecords (by decide) (by decide) (by decide)
    (by decide) (by decide) (by decide) (by decide) (by decide) (by decide)

/-- Claim C8 as stated fails for an atlas whose only record has height field 40000: the
height is stored as the `short` -25536, `max_height` stays 0, and the scale of the returned
font is 16 / 0 = infinity, not 16 / 40000. -/
theorem ldfont_scale_ignores_large_height :
    readRecords tallAtlas 0x08 1 = some [⟨0, 0, 0, 10, 40000, 0, 0, 1065353216⟩] ∧
    wrapI16 40000 = -25536 ∧
    ldfont sampleEnv sampleSizes (some tallAtlas) 16
      = ⟨sampleFontEvents 72 1,
          .ret ⟨16, .inf, 7, 64, 64, 63, [mkGlyph 64 64 ⟨0, 0, 0, 10, 40000, 0, 0, 1065353216⟩],
            1⟩⟩ := by
  decide

/-- Claim C8, amended, at the sample atlas (glyph heights 20 and 12) and requested height
16: `ldfont` returns the sample font, whose scale is the float 16 / 20. -/
theorem ldfont_scale_witness :
    ldfont sampleEnv sampleSizes (some sampleAtlas) 16 = ⟨sampleFontEvents 94 71, .ret sampleFont⟩ ∧
    maxSignedHeight sampleRecords = 20 ∧
    sampleFont.scale = fdiv (16 : Byte).val (maxSignedHeight sampleRecords).toNat ∧
    fdiv 16 20 = .fin 13421773 (-24) := by
  have h := ldfont_scale sampleAtlas 2 70 64 64 sampleRecords (by decide) (by decide) (by decide)
    (by decide) (by decide) (by decide) (by decide)
  exact ⟨by decide, by decide,
    h.2.2.2.1 sampleEnv sampleSizes 16 (sampleFontEvents 94 71) sampleFont (by decide),
    h.2.2.2.2.2⟩


/-! ## Properties of `draw` -/

theorem vertexSum_nonneg {R : Type} (cmds : List (DrawCommand R)) :
    0 ≤ (cmds.map fun c => (c.vertexCount : Int)).sum := by
  induction cmds with
  | nil => simp
  | cons c cs ih => simp only [List.map_cons, List.sum_cons]; omega

theorem drawCommands_spec {R : Type} (ops : CoordOps R) (height : Int)
    (cmds : List (DrawCommand R)) (offset : Int) (h0 : 0 ≤ offset)
    (hsum : offset + (cmds.map fun c => (c.vertexCount : Int)).sum < 2 ^ 31)
    (hclip : ∀ cmd ∈ cmds, -2 ^ 31 ≤ height - ops.toInt (ops.add cmd.clip.y cmd.clip.h) ∧
      height - ops.toInt (ops.add cmd.clip.y cmd.clip.h) < 2 ^ 31) :
    (drawCommands ops height cmds offset).1 = runningCalls ops height cmds offset ∧
      (drawCommands ops height cmds offset).2
        = offset + (cmds.map fun c => (c.vertexCount : Int)).sum := by
  induction cmds generalizing offset with
  | nil => simp [drawCommands, runningCalls]
  | cons cmd rest ih =>
    simp only [List.map_cons, List.sum_cons] at hsum
    have hrest := vertexSum_nonneg rest
    have hv : wrapI32 (cmd.vertexCount : Int) = cmd.vertexCount :=
      wrapI32_of_range (by omega) (by omega)
    have ho : wrapI32 (offset + (cmd.vertexCount : Int)) = offset + cmd.vertexCount :=
      wrapI32_of_range (by omega) (by omega)
    obtain ⟨hc0, hc1⟩ := hclip cmd (List.mem_cons_self _ _)
    have hy := wrapI32_of_range hc0 hc1
    obtain ⟨ih1, ih2⟩ := ih (offset + cmd.vertexCount) (by omega) (by omega)
      (fun c hc => hclip c (List.mem_cons_of_mem _ hc))
    simp only [drawCommands, runningCalls, commandCalls, hv, ho, hy, ih1, ih2, List.map_cons,
      List.sum_cons]
    exact ⟨trivial, Int.add_assoc _ _ _⟩

theorem runningCalls_filter {R : Type} (ops : CoordOps R) (height : Int)
    (cmds : List (DrawCommand R)) (base : Int) :
    (runningCalls ops height cmds base).filter GLCall.isCommandCall
      = runningCalls ops height cmds base := by
  induction cmds generalizing base with
  | nil => rfl
  | cons cmd rest ih =>
    simp only [runningCalls, List.cons_append, List.nil_append, List.filter_cons,
      GLCall.isCommandCall, if_true, ih]

theorem runningCalls_append {R : Type} (ops : CoordOps R) (height : Int)
    (a b : List (DrawCommand R)) (base : Int) :
    runningCalls ops height (a ++ b) base
      = runningCalls ops height a base
        ++ runningCalls ops height b (base + (a.map fun c => (c.vertexCount : Int)).sum) := by
  induction a generalizing base with
  | nil => simp [runningCalls]
  | cons cmd rest ih =>
    rw [List.cons_append]
    simp only [runningCalls, List.map_cons, List.sum_cons]
    rw [ih]
    simp [Int.add_assoc]

theorem drawLists_spec {R : Type} (ops : CoordOps R) (height : Int)
    (ls : List (DrawCallList R)) (offset : Int) (h0 : 0 ≤ offset)
    (hsum : offset + ((allCommands ls).map fun c => (c.vertexCount : Int)).sum < 2 ^ 31)
    (hclip : ∀ cmd ∈ allCommands ls, -2 ^ 31 ≤ height - ops.toInt (ops.add cmd.clip.y cmd.clip.h) ∧
      height - ops.toInt (ops.add cmd.clip.y cmd.clip.h) < 2 ^ 31) :
    (drawLists ops height ls offset).filter GLCall.isCommandCall
      = runningCalls ops height (allCommands ls) offset := by
  induction ls generalizing offset with
  | nil => rfl
  | cons l rest ih =>
    have hall : allCommands (l :: rest) = l.commands ++ allCommands rest := by
      simp [allCommands]
    rw [hall] at hsum hclip ⊢
    simp only [List.map_append, List.sum_append] at hsum
    have hr := vertexSum_nonneg (allCommands rest)
    have hl := vertexSum_nonneg l.commands
    obtain ⟨h1, h2⟩ := drawCommands_spec ops height l.commands offset h0 (by omega)
      (fun c hc => hclip c (List.mem_append_left _ hc))
    simp only [drawLists, List.filter_append, h1, h2, runningCalls_filter, runningCalls_append]
    rw [ih _ (by omega) (by omega) (fun c hc => hclip c (List.mem_append_right _ hc))]
    rfl

theorem runningCalls_described {R : Type} (ops : CoordOps R) (height : Int)
    (cmds : List (DrawCommand R)) (base : Int) :
    runningCalls ops height cmds base
      = (List.range cmds.length).flatMap (describedFrom ops height base cmds) := by
  induction cmds generalizing base with
  | nil => rfl
  | cons cmd rest ih =>
    rw [List.length_cons, List.range_succ_eq_map, List.flatMap_cons, List.flatMap_map]
    have hstep : ∀ i, describedFrom ops height base (cmd :: rest) (i + 1)
        = describedFrom ops height (base + cmd.vertexCount) rest i := by
      intro i
      simp only [describedFrom, List.getElem?_cons_succ, List.take_succ_cons, List.map_cons,
        List.sum_cons, Int.add_assoc]
    have hfun : (fun i => describedFrom ops height base (cmd :: rest) (Nat.succ i))
        = describedFrom ops height (base + cmd.vertexCount) rest := funext hstep
    rw [hfun, ← ih]
    simp [runningCalls, describedFrom]

theorem describedFrom_zero {R : Type} (ops : CoordOps R) (height : Int)
    (cmds : List (DrawCommand R)) :
    describedFrom ops height 0 cmds = describedCalls ops height cmds := by
  funext i
  unfold describedFrom describedCalls
  cases cmds[i]? <;> simp

/-- Claim C4, amended with the premises that no 32-bit `int` wraps (the vertex counts sum
to less than 2^31 and each flipped scissor coordinate fits an `int`): for a non-null
collection, the scissor, texture-bind and triangle-draw calls `draw` issues are, for each
command in list order and then command order, exactly one scissor call with rectangle
(clip_x, viewport_height - (clip_y + clip_h), clip_w, clip_h), each field converted with
`(int)`, then one bind of the command's texture, then one triangle draw of vertex_count
vertices starting at the sum of the vertex counts of all earlier commands of all lists; a
command with vertex_count 0 gets its three calls like any other. -/
theorem draw_command_calls {R : Type} (ops : CoordOps R) (width height : Int)
    (ls : List (DrawCallList R))
    (hsum : ((allCommands ls).map fun c => (c.vertexCount : Int)).sum < 2 ^ 31)
    (hclip : ∀ cmd ∈ allCommands ls,
      -2 ^ 31 ≤ height - ops.toInt (ops.add cmd.clip.y cmd.clip.h) ∧
      height - ops.toInt (ops.add cmd.clip.y cmd.clip.h) < 2 ^ 31) :
    (draw ops width height (some ls)).filter GLCall.isCommandCall
      = (List.range (allCommands ls).length).flatMap
          (describedCalls ops height (allCommands ls)) := by
  have h := drawLists_spec ops height ls 0 (le_refl _) (by omega) hclip
  simp only [draw, List.filter_append, h]
  rw [runningCalls_described, describedFrom_zero]
  simp [drawSetup, drawTeardown, GLCall.isCommandCall]

/-- Claim C4, amended, at one list with counts 3 and 6 in a viewport of height 600: the
starting offsets are 0 and 3. -/
theorem draw_command_calls_witness :
    (draw intCoord 800 600 (some sampleLists)).filter GLCall.isCommandCall
      = [.scissor 10 540 30 40, .bindTexture 7, .drawArrays 0 3,
         .scissor 0 0 800 600, .bindTexture 8, .drawArrays 3 6] :=
  (draw_command_calls intCoord 800 600 sampleLists (by decide) (by decide)).trans (by decide)

/-- Claim C4 as stated fails for a command of 2^31 vertices: the conversion
`(GLsizei)cmd->vertex_count` gives -2147483648, so the triangle draw is not one of
vertex_count vertices. -/
theorem draw_count_wraps :
    (draw intCoord 800 600 (some hugeList)).filter GLCall.isCommandCall
      = [.scissor 10 540 30 40, .bindTexture 7, .drawArrays 0 (-2147483648)] ∧
    (List.range (allCommands hugeList).length).flatMap
        (describedCalls intCoord 600 (allCommands hugeList))
      = [.scissor 10 540 30 40, .bindTexture 7, .drawArrays 0 2147483648] := by
  decide


theorem Device.run_append (d : Device) (a b : List GLCall) :
    d.run (a ++ b) = (d.run a).run b := List.foldl_append _ _ _ _

theorem drawCommands_loopCalls {R : Type} (ops : CoordOps R) (height : Int)
    (cmds : List (DrawCommand R)) (offset : Int) :
    ∀ c ∈ (drawCommands ops height cmds offset).1, c.isLoopCall = true := by
  induction cmds generalizing offset with
  | nil => simp [drawCommands]
  | cons cmd rest ih =>
    intro c hc
    simp only [drawCommands, commandCalls, List.cons_append, List.nil_append, List.mem_cons] at hc
    rcases hc with rfl | rfl | rfl | hc
    · rfl
    · rfl
    · rfl
    · exact ih _ c hc

theorem drawLists_loopCalls {R : Type} (ops : CoordOps R) (height : Int)
    (ls : List (DrawCallList R)) (offset : Int) :
    ∀ c ∈ drawLists ops height ls offset, c.isLoopCall = true := by
  induction ls generalizing offset with
  | nil => simp [drawLists]
  | cons l rest ih =>
    intro c hc
    simp only [drawLists, List.cons_append, List.nil_append, List.mem_cons, List.mem_append,
      List.append_assoc] at hc
    rcases hc with rfl | rfl | rfl | hc | hc
    · rfl
    · rfl
    · rfl
    · exact drawCommands_loopCalls ops height _ _ c hc
    · exact ih _ c hc

theorem Device.exec_loopCall (d : Device) (c : GLCall) (hc : c.isLoopCall = true) :
    d.exec c = { d with scissorBox := (d.exec c).scissorBox,
                        boundTexture := (d.exec c).boundTexture } := by
  cases c <;> simp [GLCall.isLoopCall] at hc <;> simp [Device.exec]
  split_ifs <;> rfl

theorem Device.run_loopCalls (d : Device) (calls : List GLCall)
    (h : ∀ c ∈ calls, c.isLoopCall = true) :
    d.run calls = { d with scissorBox := (d.run calls).scissorBox,
                           boundTexture := (d.run calls).boundTexture } := by
  induction calls generalizing d with
  | nil => rfl
  | cons c cs ih =>
    have h1 := Device.exec_loopCall d c (h c (List.mem_cons_self _ _))
    have h2 := ih (d.exec c) (fun c1 hc1 => h c1 (List.mem_cons_of_mem _ hc1))
    have e : d.run (c :: cs) = (d.exec c).run cs := rfl
    rw [e, h2]
    generalize ((d.exec c).run cs).scissorBox = sb
    generalize ((d.exec c).run cs).boundTexture = bt
    rw [h1]

/-- Claim C5, amended: for every device state whose attribute stack and projection and
model-view stacks have room for one more entry, every viewport size and every non-null
collection, after `draw` the blend enable and blend function, the cull, depth, scissor and
texture-2D enables, the matrix mode, the projection and model-view stacks and the attribute
stack are as before the call, and the three client-array enables are off; after an empty
non-null collection the state is the one before with the three client arrays off; a null
collection leaves the whole device state as it was. Nothing is said of the scissor
rectangle and the bound texture after a collection with commands. -/
theorem draw_restores_saved_state {R : Type} (ops : CoordOps R) (width height : Int)
    (d : Device) (ls : List (DrawCallList R))
    (hattr : d.attribStack.length < d.attribDepth)
    (hproj : d.projectionBelow.length + 1 < d.projectionDepth)
    (hmv : d.modelviewBelow.length + 1 < d.modelviewDepth) :
    (d.run (draw ops width height (some ls))).blend = d.blend ∧
    (d.run (draw ops width height (some ls))).blendFunc = d.blendFunc ∧
    (d.run (draw ops width height (some ls))).cullFace = d.cullFace ∧
    (d.run (draw ops width height (some ls))).depthTest = d.depthTest ∧
    (d.run (draw ops width height (some ls))).scissorTest = d.scissorTest ∧
    (d.run (draw ops width height (some ls))).texture2D = d.texture2D ∧
    (d.run (draw ops width height (some ls))).matrixMode = d.matrixMode ∧
    (d.run (draw ops width height (some ls))).projection = d.projection ∧
    (d.run (draw ops width height (some ls))).projectionBelow = d.projectionBelow ∧
    (d.run (draw ops width height (some ls))).modelview = d.modelview ∧
    (d.run (draw ops width height (some ls))).modelviewBelow = d.modelviewBelow ∧
    (d.run (draw ops width height (some ls))).attribStack = d.attribStack ∧
    (d.run (draw ops width height (some ls))).vertexArray = false ∧
    (d.run (draw ops width height (some ls))).texCoordArray = false ∧
    (d.run (draw ops width height (some ls))).colorArray = false ∧
    d.run (draw ops width height (some ([] : List (DrawCallList R))))
      = { d with vertexArray := false, texCoordArray := false, colorArray := false } ∧
    d.run (draw ops width height none) = d := by
  have hloop := fun s : Device => Device.run_loopCalls s (drawLists ops height ls 0)
    (drawLists_loopCalls ops height ls 0)
  simp only [draw, Device.run_append]
  rw [hloop]
  generalize ((d.run (drawSetup width height)).run (drawLists ops height ls 0)).scissorBox = sb
  generalize ((d.run (drawSetup width height)).run (drawLists ops height ls 0)).boundTexture = bt
  simp [drawSetup, drawTeardown, drawLists, Device.run, Device.exec, Device.setCap,
    Device.setClientArray, Device.setCurrent, Device.saved, hattr, hproj, hmv]

/-- Claim C5, amended, at a fresh device and the sample list. -/
theorem draw_restores_saved_state_witness :
    (freshDevice.run (draw intCoord 800 600 (some sampleLists))).blend = freshDevice.blend ∧
    (freshDevice.run (draw intCoord 800 600 (some sampleLists))).matrixMode
      = freshDevice.matrixMode ∧
    (freshDevice.run (draw intCoord 800 600 (some sampleLists))).projection
      = freshDevice.projection ∧
    (freshDevice.run (draw intCoord 800 600 (some sampleLists))).vertexArray = false := by
  have h := draw_restores_saved_state intCoord 800 600 freshDevice sampleLists (by decide)
    (by decide) (by decide)
  exact ⟨h.1, h.2.2.2.2.2.2.1, h.2.2.2.2.2.2.2.1, h.2.2.2.2.2.2.2.2.2.2.2.2.1⟩

/-- Claim C5 as stated fails: from a fresh device, drawing one command leaves texture 7
bound (it was 0) and the scissor rectangle (10, 540, 30, 40) (it was (0, 0, 800, 600));
and from a device with the vertex array enabled, an empty non-null collection leaves it
disabled. -/
theorem draw_leaves_texture_scissor_arrays :
    (freshDevice.run (draw intCoord 800 600 (some oneCommandList))).boundTexture = 7 ∧
    freshDevice.boundTexture = 0 ∧
    (freshDevice.run (draw intCoord 800 600 (some oneCommandList))).scissorBox
      = (10, 540, 30, 40) ∧
    freshDevice.scissorBox = (0, 0, 800, 600) ∧
    ({ freshDevice with vertexArray := true }.run
        (draw intCoord 800 600 (some ([] : List (DrawCallList Int))))).vertexArray = false := by
  decide


end Nuklear
